import Mathlib

/-!
# Verification of the `adventofcode-2020` shared grid/map engine

Shallow embedding of the repository's core library:

* `src/geometry/point.rs` — `Point` (i32 pair) with arithmetic,
* `src/geometry/direction.rs` — `Direction` (Up/Down/Left/Right),
* `src/geometry/map.rs` — `Map<T>` (dense row-major grid), text construction
  (`try_from`), `Display`, `Index<Point>`, flood fill (`reachable_from_ctx`)
  and shortest-path search (`navigate_ctx`),
* `src/geometry/tile.rs` — the boolean tile `Bool` with glyphs `#` and `.`,
* `src/numbers/chinese_remainder.rs` — `egcd`, `mod_inv`, `chinese_remainder`.

Modelling conventions:

* Rust `i32` coordinates are embedded as `Int`; where a cast `as usize`
  matters (the flood fill's index closure is evaluated on out-of-range
  points) the two's-complement reinterpretation is modelled explicitly as
  `· % 2^64` on `Int` (release-mode wrapping semantics).
* `usize` index arithmetic wraps modulo `2^64` (release mode); a slice or
  bitvec access with an index `≥` the length is a panic, modelled as an
  explicit failure value.
* The `u32` A* costs are `Nat` values kept below `2^32`: the cost
  increment wraps modulo `2^32` (release mode) and an absent cost-map
  entry compares as `u32::MAX`, exactly as in the source; the `navigate`
  theorems carry hypotheses under which the wrap is proved unreachable.
* Rust loops are embedded with an explicit fuel argument so that every
  definition is executable; the fuel bounds are generous and the theorems
  prove that the interesting runs finish (never report fuel exhaustion).
* Fallible operations return `Option`/`Except`; a Rust panic is an explicit
  `none`/`panicked` value.
-/

namespace Aoc2020

/-- `2^64`, the modulus of Rust's `usize` arithmetic in release mode. -/
def usizeMod : Nat := 18446744073709551616

/-- `i32::MAX`. -/
def i32Max : Int := 2147483647

/-- `2^32`, the modulus of Rust's `u32` arithmetic in release mode. -/
def u32Mod : Nat := 4294967296

/-- `u32::MAX`. -/
def u32Max : Nat := 4294967295

/-- Rust `as usize` on an `i32` value: two's-complement reinterpretation,
`(-1i32) as usize = 2^64 - 1`. -/
def toUsize (z : Int) : Nat := (z % (usizeMod : Int)).toNat

/-- `geometry::Point`: a 2D integer coordinate (`x: i32, y: i32`). -/
structure Point where
  x : Int
  y : Int
deriving DecidableEq, Repr

/-- `Point::manhattan`: `x.abs() + y.abs()`. -/
def Point.manhattan (p : Point) : Int := |p.x| + |p.y|

/-- `Point - Point` (componentwise, `impl Sub for Point`). -/
def Point.sub (p q : Point) : Point := ⟨p.x - q.x, p.y - q.y⟩

/-- The derived `Ord for Point`: lexicographic on `(x, y)`. -/
def Point.cmp (p q : Point) : Ordering :=
  (compare p.x q.x).then (compare p.y q.y)

/-- `geometry::Direction`: the 4-valued compass enum. -/
inductive Direction where
  | right
  | left
  | up
  | down
deriving DecidableEq, Repr

/-- `Direction::deltas`: `Up=(0,1)`, `Down=(0,-1)`, `Right=(1,0)`, `Left=(-1,0)`. -/
def Direction.deltas : Direction → Int × Int
  | .up => (0, 1)
  | .down => (0, -1)
  | .right => (1, 0)
  | .left => (-1, 0)

/-- `Direction::iter()`: yields `[Up, Down, Left, Right]` in this order
(the order the flood fill and A* expand neighbors in). -/
def Direction.list : List Direction := [.up, .down, .left, .right]

/-- `Point + Direction` (`impl Add<Direction> for Point`, via `deltas`). -/
def Point.step (p : Point) (d : Direction) : Point :=
  ⟨p.x + d.deltas.1, p.y + d.deltas.2⟩

/-- `geometry::map::Traversable`: three-way tile classification. -/
inductive Traversable where
  | obstructed
  | free
  | halt
deriving DecidableEq, Repr

/-- `geometry::Map<T>`: a dense tile grid.  Invariant maintained by all
constructors of the Rust type (and stated as a hypothesis where needed):
`tiles.length = width * height`; storage is row-major with `y` the slow
axis and row `0` the bottom row. -/
structure Map (T : Type) where
  tiles : List T
  width : Nat
  height : Nat
deriving DecidableEq, Repr

/-- `usize -> i32` via `try_into().unwrap_or(i32::MAX)`, as used by
`Map::in_bounds`. -/
def intBound (n : Nat) : Int := if (n : Int) ≤ i32Max then (n : Int) else i32Max

/-- `Map::in_bounds`. -/
def Map.inBounds (m : Map T) (p : Point) : Bool :=
  0 ≤ p.x && 0 ≤ p.y && p.x < intBound m.width && p.y < intBound m.height

/-- `Map::point2index` on already-cast `usize` coordinates:
`x + y * width`, wrapping modulo `2^64` in release mode. -/
def point2index (w x y : Nat) : Nat := (x + y * w) % usizeMod

/-- `impl Index<Point> for Map<T>`, totalized: `none` is a panic.  The Rust
impl asserts `x ≥ 0 && y ≥ 0`, casts to `usize`, computes `point2index` and
indexes the tile buffer (a panic when the linear index is out of range).
There is no upper-bounds check against `width`/`height`. -/
def Map.indexPoint (m : Map T) (p : Point) : Option T :=
  if p.x < 0 ∨ p.y < 0 then none
  else m.tiles[point2index m.width p.x.toNat p.y.toNat]?

end Aoc2020

namespace Aoc2020

/-! ## `Map::reachable_from_ctx` (flood fill)

The Rust source keeps a `visited` bitvec of length `tiles.len()` and a FIFO
queue.  The index closure is
`|point| point.x as usize + (point.y as usize * self.width)`; it is applied
to *unchecked* neighbor points (there is no `in_bounds` test in this
function), so the casts and the wrapping `usize` arithmetic are modelled
exactly.  An access `visited[i]` or `tiles[i]` with `i` out of range, and
the `Index<Point>` assertion on a negative coordinate, are panics. -/

/-- Outcome of a flood-fill run. -/
inductive FloodResult where
  | finished
  | panicked
  | fuelOut
deriving DecidableEq, Repr

/-- The `idx` closure of `reachable_from_ctx`, on arbitrary (possibly
negative or out-of-range) points: `point.x as usize + point.y as usize * width`
with wrapping `usize` arithmetic. -/
def floodIdx (w : Nat) (p : Point) : Nat :=
  (toUsize p.x + toUsize p.y * w) % usizeMod

/-- The neighbor loop of one expansion: for each direction in
`Direction::iter()` order, check `visited[idx(neighbor)]` (a panic — `none` —
when the bit index is out of range) and collect the neighbors to push. -/
def floodEnqueue (w : Nat) (visited : List Bool) (p : Point) :
    List Direction → Option (List Point)
  | [] => some []
  | d :: ds =>
    let nb := p.step d
    let i := floodIdx w nb
    if h : i < visited.length then
      match floodEnqueue w visited p ds with
      | none => none
      | some rest => if visited[i] then some rest else some (nb :: rest)
    else none

/-- The main loop of `reachable_from_ctx`, with the callback fixed to one
that never requests an early halt (any other callback reports a prefix of
the same visit sequence).  Returns the points reported to the callback, in
order, and the outcome. -/
def floodGo (classify : T → Traversable) (m : Map T) :
    Nat → List Bool → List Point → List Point → List Point × FloodResult
  | 0, _, _, acc => (acc.reverse, .fuelOut)
  | fuel + 1, visited, queue, acc =>
    match queue with
    | [] => (acc.reverse, .finished)
    | p :: rest =>
      let i := floodIdx m.width p
      if h : i < visited.length then
        if visited[i] then floodGo classify m fuel visited rest acc
        else
          let visited1 := visited.set i true
          if p.x < 0 ∨ p.y < 0 then (acc.reverse, .panicked)
          else
            match m.tiles[point2index m.width p.x.toNat p.y.toNat]? with
            | none => (acc.reverse, .panicked)
            | some t =>
              let trav := classify t
              let acc1 := if trav ≠ .obstructed then p :: acc else acc
              if trav = .free then
                match floodEnqueue m.width visited1 p Direction.list with
                | none => (acc1.reverse, .panicked)
                | some news => floodGo classify m fuel visited1 (rest ++ news) acc1
              else floodGo classify m fuel visited1 rest acc1
      else (acc.reverse, .panicked)

/-- Fuel bound for the flood fill: every enqueue needs an unset visited bit
at enqueue time and every expansion sets one of at most `tiles.length` bits,
so at most `1 + 4 * tiles.length` points are ever popped. -/
def floodFuel (m : Map T) : Nat := 4 * m.tiles.length + 8

/-- `Map::reachable_from_ctx` (= `reachable_from` with the unit context),
specialized to a callback that never halts early. -/
def reachable_from (classify : T → Traversable) (m : Map T) (start : Point) :
    List Point × FloodResult :=
  floodGo classify m (floodFuel m) (List.replicate m.tiles.length false) [start] []

/-! ### Reference connectivity (specification side)

The spec's notion of a region: points connected through in-bounds,
non-Obstructed tiles by 4-directional steps.  Computable so that concrete
maps can be checked by `decide`. -/

/-- In-bounds, non-Obstructed 4-neighbors of a point. -/
def specNeighbors (classify : T → Traversable) (m : Map T) (p : Point) :
    List Point :=
  Direction.list.filterMap fun d =>
    let nb := p.step d
    if m.inBounds nb then
      match m.indexPoint nb with
      | some t => if classify t ≠ .obstructed then some nb else none
      | none => none
    else none

/-- One saturation step of the reference reachability. -/
def specExpand (classify : T → Traversable) (m : Map T) (s : List Point) :
    List Point :=
  (s ++ s.flatMap (specNeighbors classify m)).dedup

/-- All points connected to `p` through in-bounds non-Obstructed tiles
(including `p` itself); `tiles.length + 1` saturation steps always reach a
fixpoint on a map satisfying the length invariant. -/
def specReach (classify : T → Traversable) (m : Map T) (p : Point) :
    List Point :=
  (specExpand classify m)^[m.tiles.length + 1] [p]

/-- Every in-bounds grid point of a map, for exhaustive concrete checks. -/
def allPoints (m : Map T) : List Point :=
  (List.range m.height).flatMap fun y =>
    (List.range m.width).map fun x => ⟨Int.ofNat x, Int.ofNat y⟩

end Aoc2020

namespace Aoc2020

/-! ## `geometry::tile::Bool` and text construction of maps

`tile::Bool` is a two-valued tile whose `parse_display` derives give it the
glyph `#` for `True` and `.` for `False`; its `Default` is `False`.  Named
`TileBool` here to avoid clashing with Lean's `Bool`. -/

inductive TileBool where
  | true
  | false
deriving DecidableEq, Repr

/-- The fallible `char → Bool` tile conversion determined by the
`parse_display` attributes (`#[display("#")]` on `True`, `#[display(".")]`
on `False`); any other character is a conversion error. -/
def TileBool.fromChar (c : Char) : Option TileBool :=
  if c = '#' then some .true else if c = '.' then some .false else none

/-- The derived one-character `Display` of `tile::Bool`. -/
def TileBool.toChar : TileBool → Char
  | .true => '#'
  | .false => '.'

/-- One trailing carriage return removed, if present (the CRLF handling
`BufRead::lines` applies after it has stripped a `'\n'`). -/
def stripCR (l : List Char) : List Char :=
  if l.getLast? = some '\r' then l.dropLast else l

/-- Core of `BufRead::lines`: split at each newline.  A segment that was
terminated by `'\n'` has one trailing `'\r'` stripped (CRLF); the final
unterminated segment is yielded verbatim, so a bare trailing `'\r'` on
the last line is kept, exactly as `BufRead::lines` keeps it.  Input
ending in a newline produces no trailing empty segment. -/
def linesCore : List Char → List Char → List (List Char)
  | [], acc => [acc.reverse]
  | c :: rest, acc =>
    if c = '\n' then
      stripCR acc.reverse :: (if rest.isEmpty then [] else linesCore rest [])
    else linesCore rest (c :: acc)

/-- `BufRead::lines` on an in-memory byte slice (the `TryFrom<&str>` route
of `Map::try_from`): `"" ↦ []`, `"a\nb" ↦ ["a","b"]`, `"a\n" ↦ ["a"]`,
`"a\n\nb" ↦ ["a","","b"]`, `"a\r\nb\r" ↦ ["a","b\r"]`. -/
def rustLines (s : List Char) : List (List Char) :=
  if s.isEmpty then [] else linesCore s []

/-- `MapConversionErr`; the Rust `TileConversion` variant carries the tile
type's inner error value, irrelevant to the claims and omitted here. -/
inductive MapConversionErr where
  | tileConversion
  | notRectangular
deriving DecidableEq, Repr

/-- Convert one line, left to right, failing on the first bad character
(the inner loop of `Map::try_from`). -/
def convertRow (conv : Char → Option T) : List Char → Except MapConversionErr (List T)
  | [] => .ok []
  | c :: cs =>
    match conv c with
    | none => .error .tileConversion
    | some t => (convertRow conv cs).map (t :: ·)

/-- The line loop of `Map::try_from`: convert every line in order and keep
the non-empty rows (`if !row.is_empty() { arr.push(row) }`). -/
def buildRows (conv : Char → Option T) :
    List (List Char) → Except MapConversionErr (List (List T))
  | [] => .ok []
  | line :: rest =>
    match convertRow conv line with
    | .error e => .error e
    | .ok row =>
      match buildRows conv rest with
      | .error e => .error e
      | .ok rows => .ok (if row.isEmpty then rows else row :: rows)

/-- `Map::from(&[R])` on an already bottom-up list of rows: width from row
0, height the row count, tiles the concatenation.  (The Rust impl also
asserts rectangularity; `try_from` has already checked it on every call
modelled here.) -/
def mapFromRows (rows : List (List T)) : Map T :=
  match rows with
  | [] => ⟨[], 0, 0⟩
  | r0 :: _ => ⟨rows.flatMap id, r0.length, rows.length⟩

/-- `Map::try_from` on text: read lines, convert, skip empty rows, reject
non-rectangular row sets, reverse the rows (text is top-down, storage is
bottom-up) and build the map. -/
def try_from (conv : Char → Option T) (input : List Char) :
    Except MapConversionErr (Map T) :=
  match buildRows conv (rustLines input) with
  | .error e => .error e
  | .ok arr =>
    if arr.isEmpty then .ok (mapFromRows arr.reverse)
    else if arr.all (fun row => row.length = (arr.headD []).length) then
      .ok (mapFromRows arr.reverse)
    else .error .notRectangular

/-- `impl Display for Map<T>`: rows from `height-1` down to `0`, each tile
through its one-character display, a newline after each row.  The tile
access is `self.index((x, y))`, in range for every map satisfying the
length invariant; `dflt` totalizes the lookup. -/
def displayMap (render : T → Char) (dflt : T) (m : Map T) : List Char :=
  (List.range m.height).reverse.flatMap fun y =>
    ((List.range m.width).map fun x => render (m.tiles.getD (x + y * m.width) dflt)) ++ ['\n']

/-- Decidable equality for `Except`, for concrete evaluation of
construction results. -/
def Except.decEq {e : Type} {a : Type} [DecidableEq e] [DecidableEq a] :
    (x y : Except e a) → Decidable (x = y)
  | .error x, .error y =>
    if h : x = y then .isTrue (by rw [h]) else .isFalse (by simp [h])
  | .error _, .ok _ => .isFalse (by simp)
  | .ok _, .error _ => .isFalse (by simp)
  | .ok x, .ok y =>
    if h : x = y then .isTrue (by rw [h]) else .isFalse (by simp [h])

instance {e : Type} {a : Type} [DecidableEq e] [DecidableEq a] :
    DecidableEq (Except e a) := Except.decEq

end Aoc2020

namespace Aoc2020

/-! ## `numbers::chinese_remainder` -/

/-- One step of the recursive extended Euclid from the source:
`egcd(a, b) = if a == 0 { (b, 0, 1) } else { let (g,x,y) = egcd(b % a, a); (g, y - (b/a)*x, x) }`
with Rust's truncating `%`/`/` (`Int.tmod`/`Int.tdiv`).  Fuel-indexed so it
computes by kernel reduction; `egcd` supplies sufficient fuel. -/
def egcdF : Nat → Int → Int → Option (Int × Int × Int)
  | 0, _, _ => none
  | fuel + 1, a, b =>
    if a = 0 then some (b, 0, 1)
    else
      match egcdF fuel (b.tmod a) a with
      | none => none
      | some (g, x, y) => some (g, y - (b.tdiv a) * x, x)

/-- `egcd` from the source; the fuel `a.natAbs + 1` always suffices because
`|b \x25 a| < |a|` for `a ≠ 0` (proved below). -/
def egcd (a b : Int) : Option (Int × Int × Int) := egcdF (a.natAbs + 1) a b

/-- `mod_inv(x, n)`: `Some(((x % n) + n) % n)` of the Bézout coefficient when
`egcd(x, n)` reports gcd `1`, else `None`. -/
def mod_inv (x n : Int) : Option Int :=
  match egcd x n with
  | none => none
  | some (g, a, _) => if g = 1 then some (((a.tmod n) + n).tmod n) else none

/-- `Constraint<N>`: a modulus/remainder pair. -/
structure Constraint where
  modulus : Int
  remainder : Int
deriving DecidableEq, Repr

/-- `Constraint::new_invert_remainder(modulus, k)`:
`Constraint { modulus, remainder: (modulus - k) % modulus }`. -/
def Constraint.new_invert_remainder (modulus k : Int) : Constraint :=
  ⟨modulus, (modulus - k).tmod modulus⟩

/-- The summation loop of `chinese_remainder`: threads
`sum += remainder * mod_inv(product / modulus, modulus)? * product / modulus`,
returning `none` as soon as a modular inverse fails (the `?` operator). -/
def crSum (product : Int) : List Constraint → Int → Option Int
  | [], sum => some sum
  | c :: rest, sum =>
    match mod_inv (product.tdiv c.modulus) c.modulus with
    | none => none
    | some inv =>
      crSum product rest (sum + c.remainder * inv * (product.tdiv c.modulus))

/-- `chinese_remainder(constraints)`: `Some(sum % product)` with truncating
`%`, or `None` when some modulus has no inverse. -/
def chinese_remainder (constraints : List Constraint) : Option Int :=
  let product := (constraints.map (·.modulus)).prod
  match crSum product constraints 0 with
  | none => none
  | some sum => some (sum.tmod product)

end Aoc2020

namespace Aoc2020

/-! ## Concrete maps used as evidence -/

open Traversable in
/-- A 4×6 map (row 0 = bottom row) whose non-Obstructed tiles form exactly
two 4-connected regions: region A `= {(3,3),(3,4),(2,4),(1,4),(0,4),(0,3),(0,2)}`
and region B `= {(3,1)}`, separated by Obstructed tiles.  Text form
(top row first): `....` / `####` / `#..#` / `#...` / `...#` / `....`
with `#` free and `.` obstructed. -/
def leakMap : Map Traversable :=
  { tiles := [obstructed, obstructed, obstructed, obstructed,
              obstructed, obstructed, obstructed, free,
              free, obstructed, obstructed, obstructed,
              free, obstructed, obstructed, free,
              free, free, free, free,
              obstructed, obstructed, obstructed, obstructed],
    width := 4, height := 6 }

/-- `p` is an in-range tile position whose tile classifies as non-Obstructed. -/
def isOpenTile (classify : T → Traversable) (m : Map T) (p : Point) : Bool :=
  match m.indexPoint p with
  | some t => decide (classify t ≠ .obstructed)
  | none => false

/-- A 1×1 map holding one Free tile. -/
def oneFree : Map Traversable :=
  { tiles := [Traversable.free], width := 1, height := 1 }

/-! ## Claim C1 -/

/-- **C1** (code bug).  On `leakMap` the non-Obstructed tiles split into
exactly two regions — every open tile is connected (through in-bounds,
non-Obstructed tiles) to the start `(3,3)` or to `(3,1)`, and the two
reach-sets are disjoint — yet `reachable_from` started at `(3,3)` reports
the other region's point `(3,1)` to the callback and terminates normally.
The missing `in_bounds` check lets the search walk off the right edge:
the visited-bitset/tile index `x + y*width` of the out-of-range point
`(4,y)` aliases the in-range tile `(0,y+1)`, so the flood marches down the
left column through aliased indices and re-enters the grid inside region B,
contradicting the claim (and the function's own doc comment, "visit every
non-obstructed tile reachable from the initial point"). -/
theorem c1_flood_fill_leaks_across_barrier :
    (∀ p ∈ allPoints leakMap, isOpenTile id leakMap p →
        (p ∈ specReach id leakMap ⟨3,3⟩ ∨ p ∈ specReach id leakMap ⟨3,1⟩)) ∧
    (∀ p ∈ specReach id leakMap ⟨3,3⟩, p ∉ specReach id leakMap ⟨3,1⟩) ∧
    isOpenTile id leakMap ⟨3,3⟩ ∧ isOpenTile id leakMap ⟨3,1⟩ ∧
    leakMap.tiles.length = leakMap.width * leakMap.height ∧
    leakMap.inBounds ⟨3,3⟩ ∧
    ⟨3,1⟩ ∉ specReach id leakMap ⟨3,3⟩ ∧
    ⟨3,1⟩ ∈ (reachable_from id leakMap ⟨3,3⟩).1 ∧
    (reachable_from id leakMap ⟨3,3⟩).2 = .finished := by decide

/-! ## Claim C2 -/

/-- **C2** (code bug).  On the 1×1 map with a single Free tile, started at
the in-bounds point `(0,0)`, `reachable_from` visits `(0,0)` and then
panics: expanding the Free tile's `Up` neighbor `(0,1)` evaluates the
visited-bitset guard `visited[idx((0,1))]` with `idx = 0 + 1*1 = 1`, out of
range for the 1-bit visited set.  So the claim that every internal access
of `reachable_from` is within range is false: any boundary Free tile that
the search expands produces an out-of-range (or, on the right edge, a
row-wrapped aliased) access. -/
theorem c2_flood_fill_oob_access :
    oneFree.tiles.length = oneFree.width * oneFree.height ∧
    oneFree.inBounds ⟨0,0⟩ ∧
    reachable_from id oneFree ⟨0,0⟩ = ([⟨0,0⟩], .panicked) := by decide

end Aoc2020

namespace Aoc2020

/-! ## Claim C3 -/

/-- A 2×3 map used to exhibit aliased indexing: the single `True` tile sits
at `(0,1)`, linear index `2`. -/
def mapC3 : Map TileBool :=
  ⟨[.false, .false, .true, .false, .false, .false], 2, 3⟩

/-- **C3, counterexample.**  On the 2×3 map, the point `(2,0)` lies outside
`[0,width)×[0,height)` (`x = 2 ≥ width = 2`, `in_bounds` is false), yet
indexing by it does *not* fail: it returns the tile value stored at linear
index `2 + 0*2 = 2`, which is the tile at `(0,1)` — the access aliases the
next row instead of asserting. -/
theorem c3_counterexample :
    mapC3.tiles.length = mapC3.width * mapC3.height ∧
    mapC3.inBounds ⟨2, 0⟩ = false ∧
    mapC3.indexPoint ⟨2, 0⟩ = some TileBool.true ∧
    mapC3.indexPoint ⟨0, 1⟩ = some TileBool.true := by decide

/-- **C3, amended.**  Indexing a `Map<T>` by a `Point` (coordinates in i32
range, width at most `2^31`) fails exactly when a coordinate is negative or
the computed linear index `x + y*width` falls outside the tile buffer; for
non-negative coordinates with an in-range linear index — which includes
points with `x ≥ width` whenever `x + y*width < tiles.len()` — it returns
the tile stored at that (then aliased) linear position rather than failing. -/
theorem c3_amended {T : Type} (m : Map T) (p : Point)
    (Hx : p.x ≤ i32Max) (Hy : p.y ≤ i32Max) (Hw : m.width ≤ 2 ^ 31) :
    (m.indexPoint p = none ↔
      p.x < 0 ∨ p.y < 0 ∨ m.tiles.length ≤ p.x.toNat + p.y.toNat * m.width) ∧
    ∀ hlt : p.x.toNat + p.y.toNat * m.width < m.tiles.length, 0 ≤ p.x → 0 ≤ p.y →
      m.indexPoint p = some (m.tiles.get ⟨p.x.toNat + p.y.toNat * m.width, hlt⟩) := by
  have hxn : p.x.toNat ≤ 2 ^ 31 - 1 := by
    rw [Int.toNat_le]
    exact le_trans Hx (by norm_num [i32Max])
  have hyn : p.y.toNat ≤ 2 ^ 31 - 1 := by
    rw [Int.toNat_le]
    exact le_trans Hy (by norm_num [i32Max])
  have hlt64 : p.x.toNat + p.y.toNat * m.width < usizeMod := by
    calc p.x.toNat + p.y.toNat * m.width
        ≤ (2 ^ 31 - 1) + (2 ^ 31 - 1) * 2 ^ 31 :=
          Nat.add_le_add hxn (Nat.mul_le_mul hyn Hw)
      _ < usizeMod := by norm_num [usizeMod]
  have hmod : point2index m.width p.x.toNat p.y.toNat
      = p.x.toNat + p.y.toNat * m.width := by
    unfold point2index
    exact Nat.mod_eq_of_lt hlt64
  constructor
  · unfold Map.indexPoint
    by_cases hneg : p.x < 0 ∨ p.y < 0
    · rw [if_pos hneg]
      constructor
      · intro _
        rcases hneg with h | h
        · exact Or.inl h
        · exact Or.inr (Or.inl h)
      · intro _
        rfl
    · rw [if_neg hneg, hmod]
      simp only [List.getElem?_eq_none_iff]
      constructor
      · exact fun h => Or.inr (Or.inr h)
      · intro h
        rcases h with h | h | h
        · exact absurd (Or.inl h) hneg
        · exact absurd (Or.inr h) hneg
        · exact h
  · intro hlt hx hy
    unfold Map.indexPoint
    rw [if_neg (by push_neg; exact ⟨hx, hy⟩), hmod]
    rw [List.getElem?_eq_getElem hlt]
    rfl

/-- Witness for `c3_amended` at the 2×3 map and the aliasing point `(2,0)`. -/
theorem c3_amended_witness :
    ((2 : Int) ≤ i32Max ∧ (0 : Int) ≤ i32Max ∧ mapC3.width ≤ 2 ^ 31) ∧
    (mapC3.indexPoint ⟨2, 0⟩ = none ↔
      (2 : Int) < 0 ∨ (0 : Int) < 0 ∨
        mapC3.tiles.length ≤ (2 : Int).toNat + (0 : Int).toNat * mapC3.width) ∧
    ∀ hlt : (2 : Int).toNat + (0 : Int).toNat * mapC3.width < mapC3.tiles.length,
      0 ≤ (2 : Int) → 0 ≤ (0 : Int) →
      mapC3.indexPoint ⟨2, 0⟩ =
        some (mapC3.tiles.get ⟨(2 : Int).toNat + (0 : Int).toNat * mapC3.width, hlt⟩) :=
  ⟨⟨by decide, by decide, by decide⟩,
    c3_amended mapC3 ⟨2, 0⟩ (by decide) (by decide) (by decide)⟩

end Aoc2020
namespace Aoc2020

/-- A text block: lines joined by single newlines, no trailing newline. -/
def joinLines : List (List Char) → List Char
  | [] => []
  | [r] => r
  | r :: rest => r ++ '\n' :: joinLines rest

theorem linesCore_no_newline (r : List Char) (acc : List Char) (h : '\n' ∉ r) :
    linesCore r acc = [acc.reverse ++ r] := by
  induction r generalizing acc with
  | nil => simp [linesCore]
  | cons c cs ih =>
    have hc : c ≠ '\n' := fun he => h (he ▸ List.mem_cons_self c cs)
    have hcs : '\n' ∉ cs := fun hm => h (List.mem_cons_of_mem c hm)
    rw [linesCore, if_neg hc, ih _ hcs]
    simp

theorem linesCore_append (r rest : List Char) (acc : List Char) (h : '\n' ∉ r) :
    linesCore (r ++ '\n' :: rest) acc =
      stripCR (acc.reverse ++ r) ::
        (if rest.isEmpty then [] else linesCore rest []) := by
  induction r generalizing acc with
  | nil => simp [linesCore]
  | cons c cs ih =>
    have hc : c ≠ '\n' := fun he => h (he ▸ List.mem_cons_self c cs)
    have hcs : '\n' ∉ cs := fun hm => h (List.mem_cons_of_mem c hm)
    rw [List.cons_append, linesCore, if_neg hc, ih _ hcs]
    simp

theorem joinLines_ne_nil (rows : List (List Char)) (h0 : rows ≠ [])
    (h1 : ∀ r ∈ rows, r ≠ []) : joinLines rows ≠ [] := by
  match rows with
  | [] => exact absurd rfl h0
  | [r] => exact h1 r (List.mem_cons_self r [])
  | r :: r2 :: rest =>
    have hj : joinLines (r :: r2 :: rest) = r ++ '\n' :: joinLines (r2 :: rest) := rfl
    rw [hj]
    intro he
    have hr : r ≠ [] := h1 r (List.mem_cons_self r _)
    rcases List.append_eq_nil.mp he with ⟨h, _⟩
    exact hr h

theorem stripCR_no_cr (r : List Char) (h : '\r' ∉ r) : stripCR r = r := by
  unfold stripCR
  match hl : r.getLast? with
  | none => simp
  | some c =>
    have hx : c ∈ r.getLast? := by rw [hl]; exact rfl
    rcases List.mem_getLast?_eq_getLast hx with ⟨hne, hc2⟩
    have hcm : c ∈ r := hc2 ▸ List.getLast_mem hne
    have : c ≠ '\r' := fun he => h (he ▸ hcm)
    simp_all

theorem linesCore_joinLines (rows : List (List Char)) (h0 : rows ≠ [])
    (h1 : ∀ r ∈ rows, r ≠ []) (h2 : ∀ r ∈ rows, '\n' ∉ r)
    (h3 : ∀ r ∈ rows, '\r' ∉ r) :
    linesCore (joinLines rows) [] = rows := by
  induction rows with
  | nil => exact absurd rfl h0
  | cons r rest ih =>
    match rest with
    | [] =>
      rw [joinLines, linesCore_no_newline r [] (h2 r (List.mem_cons_self r []))]
      simp
    | r2 :: rest2 =>
      have hj : joinLines (r :: r2 :: rest2) = r ++ '\n' :: joinLines (r2 :: rest2) := rfl
      rw [hj, linesCore_append _ _ _ (h2 r (List.mem_cons_self r _))]
      have hne : joinLines (r2 :: rest2) ≠ [] :=
        joinLines_ne_nil _ (List.cons_ne_nil _ _) (fun x hx => h1 x (List.mem_cons_of_mem r hx))
      rw [if_neg (by simpa [List.isEmpty_iff] using hne)]
      rw [ih (List.cons_ne_nil _ _) (fun x hx => h1 x (List.mem_cons_of_mem r hx))
          (fun x hx => h2 x (List.mem_cons_of_mem r hx))
          (fun x hx => h3 x (List.mem_cons_of_mem r hx))]
      rw [List.reverse_nil, List.nil_append,
        stripCR_no_cr r (h3 r (List.mem_cons_self r _))]

theorem rustLines_joinLines (rows : List (List Char)) (h0 : rows ≠ [])
    (h1 : ∀ r ∈ rows, r ≠ []) (h2 : ∀ r ∈ rows, '\n' ∉ r)
    (h3 : ∀ r ∈ rows, '\r' ∉ r) :
    rustLines (joinLines rows) = rows := by
  unfold rustLines
  rw [if_neg (by simpa [List.isEmpty_iff] using joinLines_ne_nil rows h0 h1)]
  exact linesCore_joinLines rows h0 h1 h2 h3

end Aoc2020
namespace Aoc2020

theorem convertRow_ok {T : Type} (conv : Char → Option T) (l : List Char)
    (h : ∀ c ∈ l, (conv c).isSome) :
    convertRow conv l = .ok (l.filterMap conv) := by
  induction l with
  | nil => rfl
  | cons c cs ih =>
    rcases Option.isSome_iff_exists.mp (h c (List.mem_cons_self c cs)) with ⟨t, ht⟩
    rw [convertRow, ht, ih (fun x hx => h x (List.mem_cons_of_mem c hx))]
    simp [List.filterMap_cons, ht, Except.map]

theorem filterMap_length_of_isSome {T : Type} (conv : Char → Option T) (l : List Char)
    (h : ∀ c ∈ l, (conv c).isSome) :
    (l.filterMap conv).length = l.length := by
  induction l with
  | nil => rfl
  | cons c cs ih =>
    rcases Option.isSome_iff_exists.mp (h c (List.mem_cons_self c cs)) with ⟨t, ht⟩
    rw [List.filterMap_cons, ht]
    simp [ih (fun x hx => h x (List.mem_cons_of_mem c hx))]

theorem buildRows_ok {T : Type} (conv : Char → Option T) (lines : List (List Char))
    (h : ∀ l ∈ lines, ∀ c ∈ l, (conv c).isSome) :
    buildRows conv lines =
      .ok ((lines.filter (fun l => !l.isEmpty)).map (fun l => l.filterMap conv)) := by
  induction lines with
  | nil => rfl
  | cons line rest ih =>
    rw [buildRows, convertRow_ok conv line (h line (List.mem_cons_self line rest)),
      ih (fun l hl => h l (List.mem_cons_of_mem line hl))]
    have hlen : (line.filterMap conv).length = line.length :=
      filterMap_length_of_isSome conv line (h line (List.mem_cons_self line rest))
    by_cases he : line.isEmpty
    · have : line = [] := List.isEmpty_iff.mp he
      subst this
      simp [List.filter_cons]
    · have h1 : line.length ≠ 0 := by
        intro h0
        exact he (by simpa [List.isEmpty_iff] using List.length_eq_zero.mp h0)
      have h2 : (line.filterMap conv).length ≠ 0 := by rw [hlen]; exact h1
      have hfe : (line.filterMap conv).isEmpty = false := by
        cases hfm : line.filterMap conv with
        | nil =>
          rw [hfm] at h2
          simp at h2
        | cons a as => rfl
      simp [List.filter_cons, he, hfe]

end Aoc2020
namespace Aoc2020

theorem range_map_getD {T : Type} (l : List T) (d : T) :
    (List.range l.length).map (fun i => l.getD i d) = l := by
  apply List.ext_getElem
  · simp
  · intro i h1 h2
    simp only [List.getElem_map, List.getElem_range]
    exact List.getD_eq_getElem l d h2

theorem getD_flatMap_rect {T : Type} (L : Nat) (rs : List (List T)) (d : T)
    (hrect : ∀ r ∈ rs, r.length = L) :
    ∀ y x, y < rs.length → x < L →
      ((rs.flatMap id).getD (x + y * L) d) = (rs.getD y []).getD x d := by
  induction rs with
  | nil =>
    intro y x hy hx
    exact absurd hy (by simp)
  | cons r rs ih =>
    intro y x hy hx
    have hr : r.length = L := hrect r (List.mem_cons_self r rs)
    rw [List.flatMap_cons]
    simp only [id_eq]
    cases y with
    | zero =>
      simp only [Nat.zero_mul, Nat.add_zero]
      rw [List.getD_append _ _ _ _ (by rw [hr]; exact hx)]
      rfl
    | succ y =>
      have hge : r.length ≤ x + (y + 1) * L := by
        rw [hr]
        calc L ≤ (y + 1) * L := Nat.le_mul_of_pos_left L (Nat.succ_pos y)
        _ ≤ x + (y + 1) * L := Nat.le_add_left _ _
      rw [List.getD_append_right _ _ _ _ hge]
      have harith : x + (y + 1) * L - r.length = x + y * L := by
        rw [hr]
        have : (y + 1) * L = y * L + L := by ring
        omega
      rw [harith, List.getD_cons_succ]
      exact ih (fun t ht => hrect t (List.mem_cons_of_mem r ht)) y x
        (Nat.lt_of_succ_lt_succ hy) hx

theorem displayMap_rect {T : Type} (render : T → Char) (dflt : T) (L : Nat)
    (rs : List (List T)) (hrect : ∀ r ∈ rs, r.length = L) :
    displayMap render dflt ⟨rs.flatMap id, L, rs.length⟩ =
      rs.reverse.flatMap (fun r => r.map render ++ ['\n']) := by
  unfold displayMap
  have hrow : ∀ y ∈ (List.range rs.length).reverse,
      ((List.range L).map fun x =>
        render ((rs.flatMap id).getD (x + y * L) dflt)) ++ ['\n'] =
      ((rs.getD y []).map render) ++ ['\n'] := by
    intro y hy
    have hylt : y < rs.length := by
      rw [List.mem_reverse] at hy
      exact List.mem_range.mp hy
    congr 1
    have hL : (rs.getD y []).length = L := by
      rw [List.getD_eq_getElem rs [] hylt]
      exact hrect _ (List.getElem_mem hylt)
    apply List.ext_getElem
    · simp only [List.length_map, List.length_range, hL]
    · intro i h1 h2
      simp only [List.getElem_map, List.getElem_range]
      rw [getD_flatMap_rect L rs dflt hrect y i hylt (by simpa using h1)]
      congr 1
      exact List.getD_eq_getElem _ dflt (by simpa using h2)
  calc ((List.range rs.length).reverse.flatMap fun y =>
          ((List.range L).map fun x =>
            render ((rs.flatMap id).getD (x + y * L) dflt)) ++ ['\n'])
      = (List.range rs.length).reverse.flatMap
          (fun y => ((rs.getD y []).map render) ++ ['\n']) :=
        List.flatMap_congr hrow
    _ = rs.reverse.flatMap (fun r => r.map render ++ ['\n']) := by
        rw [List.flatMap_def, List.flatMap_def]
        congr 1
        have hcomp : (fun y => ((rs.getD y []).map render) ++ ['\n'])
            = (fun r : List T => r.map render ++ ['\n']) ∘ (fun y => rs.getD y []) := rfl
        rw [hcomp, ← List.map_map]
        congr 1
        rw [List.map_reverse]
        congr 1
        exact range_map_getD rs []

end Aoc2020
namespace Aoc2020

theorem glyph_fromChar_isSome (c : Char) (h : c = '#' ∨ c = '.') :
    (TileBool.fromChar c).isSome := by
  rcases h with h | h <;> subst h <;> rfl

theorem glyph_roundtrip (r : List Char) (h : ∀ c ∈ r, c = '#' ∨ c = '.') :
    (r.filterMap TileBool.fromChar).map TileBool.toChar = r := by
  induction r with
  | nil => rfl
  | cons c cs ih =>
    have hc := h c (List.mem_cons_self c cs)
    have hcs := fun x hx => h x (List.mem_cons_of_mem c hx)
    rcases hc with hc | hc <;> subst hc <;>
      simp only [List.filterMap_cons, TileBool.fromChar, if_pos rfl, List.map_cons,
        TileBool.toChar, ih hcs] <;> simp [TileBool.fromChar, TileBool.toChar, ih hcs]

theorem flatMap_terminated_rows (rows : List (List Char)) (h0 : rows ≠ []) :
    rows.flatMap (fun r => r ++ ['\n']) = joinLines rows ++ ['\n'] := by
  induction rows with
  | nil => exact absurd rfl h0
  | cons r rest ih =>
    match rest with
    | [] => simp [joinLines]
    | r2 :: rest2 =>
      have hj : joinLines (r :: r2 :: rest2) = r ++ '\n' :: joinLines (r2 :: rest2) := rfl
      rw [List.flatMap_cons, ih (List.cons_ne_nil _ _), hj]
      simp

theorem mapFromRows_ne_nil {T : Type} (rows : List (List T)) (h0 : rows ≠ []) :
    mapFromRows rows = ⟨rows.flatMap id, (rows.headD []).length, rows.length⟩ := by
  match rows with
  | [] => exact absurd rfl h0
  | r0 :: rest => rfl

/-- **C6** (confirmed).  For every non-empty rectangular text block —
non-empty lines of equal length over the two recognized glyphs `#` and
`.` — constructing a `Map<Bool>` via `try_from` succeeds and rendering it
back via `Display` reproduces the original text exactly, plus the trailing
newline `Display` always emits. -/
theorem c6_try_from_display_roundtrip (rows : List (List Char)) (h0 : rows ≠ [])
    (h1 : ∀ r ∈ rows, r ≠ [])
    (hrect : ∀ r1 ∈ rows, ∀ r2 ∈ rows, r1.length = r2.length)
    (hglyph : ∀ r ∈ rows, ∀ c ∈ r, c = '#' ∨ c = '.') :
    ∃ m, try_from TileBool.fromChar (joinLines rows) = .ok m ∧
      displayMap TileBool.toChar .false m = joinLines rows ++ ['\n'] := by
  have h2 : ∀ r ∈ rows, '\n' ∉ r := by
    intro r hr hc
    rcases hglyph r hr _ hc with h | h <;> exact absurd h (by decide)
  have h3 : ∀ r ∈ rows, '\r' ∉ r := by
    intro r hr hc
    rcases hglyph r hr _ hc with h | h <;> exact absurd h (by decide)
  have hlines : rustLines (joinLines rows) = rows := rustLines_joinLines rows h0 h1 h2 h3
  have hsome : ∀ l ∈ rows, ∀ c ∈ l, (TileBool.fromChar c).isSome :=
    fun l hl c hc => glyph_fromChar_isSome c (hglyph l hl c hc)
  have hfilter : rows.filter (fun l => !l.isEmpty) = rows := by
    apply List.filter_eq_self.mpr
    intro r hr
    cases hre : r with
    | nil => exact absurd hre (h1 r hr)
    | cons a as => rfl
  set conv := TileBool.fromChar with hconv
  set arr := rows.map (fun l => l.filterMap conv) with harr
  have hbuild : buildRows conv rows = .ok arr := by
    rw [buildRows_ok conv rows hsome, hfilter]
  have harrlen : ∀ row ∈ arr, row.length = (rows.headD []).length := by
    intro row hrow
    rw [harr] at hrow
    rcases List.mem_map.mp hrow with ⟨l, hl, rfl⟩
    rw [filterMap_length_of_isSome conv l (hsome l hl)]
    exact hrect l hl (rows.headD []) (by
      match rows, h0 with
      | r :: rest, _ => exact List.mem_cons_self r rest)
  have harrne : arr ≠ [] := by
    rw [harr]
    intro he
    exact h0 (List.map_eq_nil_iff.mp he)
  have harrE : arr.isEmpty = false := by
    cases ha : arr with
    | nil => exact absurd ha harrne
    | cons x xs => rfl
  have hheadlen : (arr.headD []).length = (rows.headD []).length :=
    harrlen _ (by
      match arr, harrne with
      | a :: rest, _ => exact List.mem_cons_self a rest)
  have hall : arr.all (fun row => row.length = (arr.headD []).length) = true := by
    rw [List.all_eq_true]
    intro row hrow
    rw [decide_eq_true_iff, harrlen row hrow, hheadlen]
  refine ⟨mapFromRows arr.reverse, ?_, ?_⟩
  · unfold try_from
    rw [hlines, hbuild]
    simp only [harrE, Bool.false_eq_true, if_false, hall, if_true]
  · have hrevne : arr.reverse ≠ [] := by
      intro he
      exact harrne (by simpa using he)
    rw [mapFromRows_ne_nil arr.reverse hrevne]
    have hrevlen : ∀ row ∈ arr.reverse, row.length = (rows.headD []).length := by
      intro row hrow
      exact harrlen row (List.mem_reverse.mp hrow)
    have hrevhead : (arr.reverse.headD []).length = (rows.headD []).length :=
      hrevlen _ (by
        match arr.reverse, hrevne with
        | a :: rest, _ => exact List.mem_cons_self a rest)
    rw [hrevhead]
    rw [displayMap_rect TileBool.toChar .false (rows.headD []).length arr.reverse hrevlen]
    rw [List.reverse_reverse]
    have hperrow : ∀ row ∈ arr, row.map TileBool.toChar ++ ['\n']
        = (fun l : List Char => l ++ ['\n']) ((row.map TileBool.toChar)) := fun _ _ => rfl
    calc arr.flatMap (fun r => r.map TileBool.toChar ++ ['\n'])
        = rows.flatMap (fun l => (l.filterMap conv).map TileBool.toChar ++ ['\n']) := by
          rw [harr, List.flatMap_def, List.map_map, ← List.flatMap_def]
          rfl
      _ = rows.flatMap (fun l => l ++ ['\n']) := by
          apply List.flatMap_congr
          intro l hl
          rw [hconv, glyph_roundtrip l (hglyph l hl)]
      _ = joinLines rows ++ ['\n'] := flatMap_terminated_rows rows h0

end Aoc2020
namespace Aoc2020

/-- **C7, amended.**  For every input text whose non-empty lines do not
all have equal length *and whose characters all convert to tiles*,
`Map::try_from` fails with the `NotRectangular` error (and, the result
being an `Err`, no map value — not even a partial one — is returned, and
rows are never padded or truncated).  The qualification is forced by
`c7_counterexample`: character conversion runs before the rectangularity
check, so a jagged input containing an unconvertible character fails with
`TileConversion` instead. -/
theorem c7_amended {T : Type} (conv : Char → Option T) (input : List Char)
    (hconv : ∀ l ∈ rustLines input, ∀ c ∈ l, (conv c).isSome)
    (hjag : ∃ l1 ∈ rustLines input, l1 ≠ [] ∧
      ∃ l2 ∈ rustLines input, l2 ≠ [] ∧ l1.length ≠ l2.length) :
    try_from conv input = .error .notRectangular := by
  have hbuild := buildRows_ok conv (rustLines input) hconv
  set lines := rustLines input with hlines
  set arr := (lines.filter (fun l => !l.isEmpty)).map (fun l => l.filterMap conv)
    with harr
  obtain ⟨l1, hl1, hl1ne, l2, hl2, hl2ne, hne⟩ := hjag
  have hne1 : l1.isEmpty = false := by
    cases h : l1 with
    | nil => exact absurd h hl1ne
    | cons a as => rfl
  have hne2 : l2.isEmpty = false := by
    cases h : l2 with
    | nil => exact absurd h hl2ne
    | cons a as => rfl
  have hl1f : l1 ∈ lines.filter (fun l => !l.isEmpty) :=
    List.mem_filter.mpr ⟨hl1, by rw [hne1]; rfl⟩
  have hl2f : l2 ∈ lines.filter (fun l => !l.isEmpty) :=
    List.mem_filter.mpr ⟨hl2, by rw [hne2]; rfl⟩
  have hr1 : l1.filterMap conv ∈ arr := List.mem_map_of_mem _ hl1f
  have hr2 : l2.filterMap conv ∈ arr := List.mem_map_of_mem _ hl2f
  have hr1len : (l1.filterMap conv).length = l1.length :=
    filterMap_length_of_isSome conv l1 (hconv l1 hl1)
  have hr2len : (l2.filterMap conv).length = l2.length :=
    filterMap_length_of_isSome conv l2 (hconv l2 hl2)
  have harrE : arr.isEmpty = false := by
    cases h : arr with
    | nil => exact absurd (h ▸ hr1) (List.not_mem_nil _)
    | cons a as => rfl
  have hallfalse : arr.all (fun row => row.length = (arr.headD []).length) = false := by
    cases hv : arr.all (fun row => row.length = (arr.headD []).length) with
    | false => rfl
    | true =>
      exfalso
      rw [List.all_eq_true] at hv
      have e1 := decide_eq_true_eq.mp (hv _ hr1)
      have e2 := decide_eq_true_eq.mp (hv _ hr2)
      rw [hr1len] at e1
      rw [hr2len] at e2
      exact hne (e1.trans e2.symm)
  unfold try_from
  rw [← hlines, hbuild]
  simp only [harrE, hallfalse, Bool.false_eq_true, if_false]

/-- **C7, counterexample.**  The input `"#x\n#"` has non-empty lines
`["#x", "#"]` of unequal lengths 2 and 1, so the claim as stated promises a
`NotRectangular` failure; but `Map::<Bool>::try_from` converts characters
line by line *before* checking rectangularity, so it fails with
`TileConversion` (on the `x`) instead. -/
theorem c7_counterexample :
    rustLines ['#', 'x', '\n', '#'] = [['#', 'x'], ['#']] ∧
    try_from TileBool.fromChar ['#', 'x', '\n', '#'] = .error .tileConversion := by
  decide

end Aoc2020
namespace Aoc2020

/-- **C10** (confirmed).  `Map::try_from` silently skips every empty line:
whenever all characters convert and the non-empty lines all have equal
length, construction succeeds even with empty lines interleaved, the
height is the number of non-empty lines and the tile count is the total
length of the non-empty lines only; concretely, `"##\n\n##"` yields a 2×2
map of four `True` tiles rather than a `NotRectangular` error. -/
theorem c10_empty_lines_skipped {T : Type} (conv : Char → Option T) (input : List Char)
    (hconv : ∀ l ∈ rustLines input, ∀ c ∈ l, (conv c).isSome)
    (hrect : ∀ l1 ∈ rustLines input, l1 ≠ [] →
      ∀ l2 ∈ rustLines input, l2 ≠ [] → l1.length = l2.length) :
    (try_from TileBool.fromChar ['#', '#', '\n', '\n', '#', '#']
      = .ok ⟨[.true, .true, .true, .true], 2, 2⟩) ∧
    ∃ m, try_from conv input = .ok m ∧
      m.height = ((rustLines input).filter (fun l => !l.isEmpty)).length ∧
      m.tiles.length
        = (((rustLines input).filter (fun l => !l.isEmpty)).map List.length).sum := by
  constructor
  · decide
  · have hbuild := buildRows_ok conv (rustLines input) hconv
    set lines := rustLines input with hlines
    set filt := lines.filter (fun l => !l.isEmpty) with hfilt
    set arr := filt.map (fun l => l.filterMap conv) with harr
    have hfne : ∀ l ∈ filt, l ≠ [] := by
      intro l hl he
      have := (List.mem_filter.mp hl).2
      rw [he] at this
      exact absurd this (by decide)
    have hfmem : ∀ l ∈ filt, l ∈ lines := fun l hl => (List.mem_filter.mp hl).1
    have hrowlen : ∀ l ∈ filt, (l.filterMap conv).length = l.length := by
      intro l hl
      exact filterMap_length_of_isSome conv l (hconv l (hfmem l hl))
    have hlensum : (arr.reverse.flatMap id).length = (filt.map List.length).sum := by
      rw [List.length_flatMap, harr, List.map_reverse, List.map_map, List.sum_reverse]
      congr 1
      apply List.map_congr_left
      intro l hl
      exact hrowlen l hl
    have hok : try_from conv input = .ok (mapFromRows arr.reverse) := by
      unfold try_from
      rw [← hlines, hbuild]
      cases hae : arr.isEmpty with
      | true => simp only [hae, if_true]
      | false =>
        have hall : arr.all (fun row => row.length = (arr.headD []).length) = true := by
          rw [List.all_eq_true]
          intro row hrow
          rw [decide_eq_true_eq]
          have hheadmem : arr.headD [] ∈ arr := by
            cases ha : arr with
            | nil =>
              rw [ha] at hae
              simp at hae
            | cons a as => exact List.mem_cons_self a as
          rcases List.mem_map.mp (harr ▸ hrow) with ⟨l, hl, hrfl⟩
          rcases List.mem_map.mp (harr ▸ hheadmem) with ⟨lh, hlh, hhrfl⟩
          rw [← hrfl, ← hhrfl, hrowlen l hl, hrowlen lh hlh]
          exact hrect l (hfmem l hl) (hfne l hl) lh (hfmem lh hlh) (hfne lh hlh)
        simp only [hae, Bool.false_eq_true, if_false, hall, if_true]
    refine ⟨mapFromRows arr.reverse, hok, ?_, ?_⟩
    · cases ha : arr.reverse with
      | nil =>
        have harrnil : arr = [] := by simpa using ha
        have hfnil : filt = [] := by
          rw [harr] at harrnil
          exact List.map_eq_nil_iff.mp harrnil
        rw [hfnil]
        rfl
      | cons r0 rest =>
        show (r0 :: rest).length = filt.length
        rw [← ha, List.length_reverse, harr, List.length_map]
    · cases ha : arr.reverse with
      | nil =>
        have harrnil : arr = [] := by simpa using ha
        have hfnil : filt = [] := by
          rw [harr] at harrnil
          exact List.map_eq_nil_iff.mp harrnil
        rw [hfnil]
        rfl
      | cons r0 rest =>
        show ((r0 :: rest).flatMap id).length = (filt.map List.length).sum
        rw [← ha, hlensum]

end Aoc2020

namespace Aoc2020

/-- Witness for `c6_try_from_display_roundtrip` at the 2×2 block
`"#." / ".#"`. -/
theorem c6_try_from_display_roundtrip_witness :
    (([['#', '.'], ['.', '#']] : List (List Char)) ≠ [] ∧
      (∀ r ∈ ([['#', '.'], ['.', '#']] : List (List Char)), r ≠ []) ∧
      (∀ r1 ∈ ([['#', '.'], ['.', '#']] : List (List Char)),
        ∀ r2 ∈ ([['#', '.'], ['.', '#']] : List (List Char)), r1.length = r2.length) ∧
      (∀ r ∈ ([['#', '.'], ['.', '#']] : List (List Char)),
        ∀ c ∈ r, c = '#' ∨ c = '.')) ∧
    ∃ m, try_from TileBool.fromChar (joinLines [['#', '.'], ['.', '#']]) = .ok m ∧
      displayMap TileBool.toChar .false m
        = joinLines [['#', '.'], ['.', '#']] ++ ['\n'] :=
  ⟨⟨by decide, by decide, by decide, by decide⟩,
    c6_try_from_display_roundtrip [['#', '.'], ['.', '#']]
      (by decide) (by decide) (by decide) (by decide)⟩

/-- Witness for `c7_amended` at the all-glyph jagged input `"##\n#"` from
the claim. -/
theorem c7_amended_witness :
    ((∀ l ∈ rustLines ['#', '#', '\n', '#'], ∀ c ∈ l,
        (TileBool.fromChar c).isSome) ∧
      (∃ l1 ∈ rustLines ['#', '#', '\n', '#'], l1 ≠ [] ∧
        ∃ l2 ∈ rustLines ['#', '#', '\n', '#'], l2 ≠ [] ∧ l1.length ≠ l2.length)) ∧
    try_from TileBool.fromChar ['#', '#', '\n', '#'] = .error .notRectangular :=
  ⟨⟨by decide, by decide⟩,
    c7_amended TileBool.fromChar ['#', '#', '\n', '#'] (by decide) (by decide)⟩

/-- Witness for `c10_empty_lines_skipped` at the input `"##\n\n##"`. -/
theorem c10_empty_lines_skipped_witness :
    ((∀ l ∈ rustLines ['#', '#', '\n', '\n', '#', '#'], ∀ c ∈ l,
        (TileBool.fromChar c).isSome) ∧
      (∀ l1 ∈ rustLines ['#', '#', '\n', '\n', '#', '#'], l1 ≠ [] →
        ∀ l2 ∈ rustLines ['#', '#', '\n', '\n', '#', '#'], l2 ≠ [] →
          l1.length = l2.length)) ∧
    ((try_from TileBool.fromChar ['#', '#', '\n', '\n', '#', '#']
      = .ok ⟨[.true, .true, .true, .true], 2, 2⟩) ∧
    ∃ m, try_from TileBool.fromChar ['#', '#', '\n', '\n', '#', '#'] = .ok m ∧
      m.height = ((rustLines ['#', '#', '\n', '\n', '#', '#']).filter
        (fun l => !l.isEmpty)).length ∧
      m.tiles.length
        = (((rustLines ['#', '#', '\n', '\n', '#', '#']).filter
            (fun l => !l.isEmpty)).map List.length).sum) :=
  ⟨⟨by decide, by decide⟩,
    c10_empty_lines_skipped TileBool.fromChar ['#', '#', '\n', '\n', '#', '#']
      (by decide) (by decide)⟩

end Aoc2020
namespace Aoc2020

theorem egcdF_spec : ∀ (fuel : Nat) (a b : Int), 0 ≤ a → 0 ≤ b → a.natAbs < fuel →
    ∃ g x y, egcdF fuel a b = some (g, x, y) ∧
      0 ≤ g ∧ g ∣ a ∧ g ∣ b ∧ a * x + b * y = g := by
  intro fuel
  induction fuel with
  | zero =>
    intro a b _ _ h
    omega
  | succ f ih =>
    intro a b ha hb hfuel
    by_cases haz : a = 0
    · subst haz
      refine ⟨b, 0, 1, ?_, hb, dvd_zero b, dvd_refl b, by ring⟩
      rw [egcdF, if_pos rfl]
    · have hapos : 0 < a := lt_of_le_of_ne ha (Ne.symm haz)
      have hr_eq : b.tmod a = b % a := Int.tmod_eq_emod hb ha
      have hr0 : 0 ≤ b.tmod a := by rw [hr_eq]; exact Int.emod_nonneg b haz
      have hrlt : b.tmod a < a := by rw [hr_eq]; exact Int.emod_lt_of_pos b hapos
      have hfr : (b.tmod a).natAbs < f := by omega
      obtain ⟨g, x, y, heq, hg0, hgr, hga, hbez⟩ := ih (b.tmod a) a hr0 ha hfr
      have ht : a * b.tdiv a + b.tmod a = b := by
        have := Int.tmod_def b a
        linarith
      refine ⟨g, y - b.tdiv a * x, x, ?_, hg0, hga, ?_, ?_⟩
      · rw [egcdF, if_neg haz, heq]
      · have : g ∣ a * b.tdiv a + b.tmod a := Dvd.dvd.add (hga.mul_right _) hgr
        rwa [ht] at this
      · linear_combination hbez - x * ht

theorem egcd_spec (a b : Int) (ha : 0 ≤ a) (hb : 0 ≤ b) :
    ∃ g x y, egcd a b = some (g, x, y) ∧
      (g : Int) = Int.gcd a b ∧ a * x + b * y = g := by
  obtain ⟨g, x, y, heq, hg0, hga, hgb, hbez⟩ :=
    egcdF_spec (a.natAbs + 1) a b ha hb (Nat.lt_succ_self _)
  refine ⟨g, x, y, heq, ?_, hbez⟩
  have h1 : g ∣ (Int.gcd a b : Int) := Int.dvd_gcd hga hgb
  have h2 : (Int.gcd a b : Int) ∣ g := by
    have := Int.gcd_dvd_left (a := a) (b := b)
    have := Int.gcd_dvd_right (a := a) (b := b)
    calc (Int.gcd a b : Int) ∣ a * x + b * y :=
      Dvd.dvd.add (Int.gcd_dvd_left.mul_right x) (Int.gcd_dvd_right.mul_right y)
    _ = g := hbez
  exact Int.dvd_antisymm hg0 (Int.natCast_nonneg _) h1 h2

theorem neg_tmod (a b : Int) : (-a).tmod b = -(a.tmod b) := by
  rw [Int.tmod_def, Int.tmod_def, Int.neg_tdiv]
  ring

theorem tmod_bounds (a n : Int) (hn : 0 < n) : -n < a.tmod n ∧ a.tmod n < n := by
  rcases le_or_lt 0 a with ha | ha
  · constructor
    · calc -n < 0 := by omega
      _ ≤ a.tmod n := Int.tmod_nonneg n ha
    · exact Int.tmod_lt_of_pos a hn
  · have h1 : a.tmod n = -((-a).tmod n) := by rw [neg_tmod]; ring
    have h2 : 0 ≤ (-a).tmod n := Int.tmod_nonneg n (by omega)
    have h3 : (-a).tmod n < n := Int.tmod_lt_of_pos (-a) hn
    omega

theorem tmod_modEq (a n : Int) : a.tmod n ≡ a [ZMOD n] := by
  rw [Int.tmod_def]
  unfold Int.ModEq
  conv_rhs => rw [show a = a - n * a.tdiv n + n * a.tdiv n by ring]
  rw [Int.add_mul_emod_self_left]

theorem mod_inv_none_iff (x n : Int) (hx : 0 ≤ x) (hn : 0 ≤ n) :
    mod_inv x n = none ↔ Int.gcd x n ≠ 1 := by
  obtain ⟨g, a, y, heq, hgcd, hbez⟩ := egcd_spec x n hx hn
  unfold mod_inv
  rw [heq]
  show (if g = 1 then some ((a.tmod n + n).tmod n) else none) = none ↔ x.gcd n ≠ 1
  by_cases h1 : g = 1
  · rw [if_pos h1]
    have hg1 : x.gcd n = 1 := by
      rw [h1] at hgcd
      exact_mod_cast hgcd.symm
    simp [hg1]
  · rw [if_neg h1]
    have hgne : x.gcd n ≠ 1 := by
      intro hone
      exact h1 (by rw [hgcd, hone]; rfl)
    simp [hgne]

theorem mod_inv_some_spec (x n i : Int) (hx : 0 ≤ x) (hn : 0 < n)
    (h : mod_inv x n = some i) : 0 ≤ i ∧ i < n ∧ x * i ≡ 1 [ZMOD n] := by
  obtain ⟨g, a, y, heq, hgcd, hbez⟩ := egcd_spec x n hx (le_of_lt hn)
  unfold mod_inv at h
  rw [heq] at h
  have h' : (if g = 1 then some ((a.tmod n + n).tmod n) else none) = some i := h
  by_cases h1 : g = 1
  · rw [if_pos h1] at h'
    have hi : i = ((a.tmod n) + n).tmod n := by
      injection h' with h2
      exact h2.symm
    obtain ⟨hb1, hb2⟩ := tmod_bounds a n hn
    have hnn : 0 ≤ a.tmod n + n := by omega
    have heqmod : ((a.tmod n) + n).tmod n = ((a.tmod n) + n) % n :=
      Int.tmod_eq_emod hnn (le_of_lt hn)
    have hi0 : 0 ≤ i := by
      rw [hi, heqmod]
      exact Int.emod_nonneg _ (by omega)
    have hilt : i < n := by
      rw [hi, heqmod]
      exact Int.emod_lt_of_pos _ hn
    refine ⟨hi0, hilt, ?_⟩
    have hn0 : n ≡ 0 [ZMOD n] := Int.modEq_zero_iff_dvd.mpr dvd_rfl
    have hia : i ≡ a [ZMOD n] := by
      rw [hi]
      calc ((a.tmod n) + n).tmod n ≡ (a.tmod n) + n [ZMOD n] := tmod_modEq _ n
      _ ≡ a.tmod n + 0 [ZMOD n] := Int.ModEq.add_left _ hn0
      _ = a.tmod n := add_zero _
      _ ≡ a [ZMOD n] := tmod_modEq a n
    have hny : n * y ≡ 0 [ZMOD n] := Int.modEq_zero_iff_dvd.mpr (dvd_mul_right n y)
    calc x * i ≡ x * a [ZMOD n] := Int.ModEq.mul_left x hia
    _ ≡ x * a + 0 [ZMOD n] := by rw [add_zero]
    _ ≡ x * a + n * y [ZMOD n] := Int.ModEq.add_left _ hny.symm
    _ = g := hbez
    _ = 1 := h1
  · rw [if_neg h1] at h'
    exact absurd h' (by simp)

end Aoc2020
namespace Aoc2020

theorem crSum_none_iff (product : Int) (cs : List Constraint) (s : Int) :
    crSum product cs s = none ↔
      ∃ c ∈ cs, mod_inv (product.tdiv c.modulus) c.modulus = none := by
  induction cs generalizing s with
  | nil => simp [crSum]
  | cons c rest ih =>
    rw [crSum]
    cases hmi : mod_inv (product.tdiv c.modulus) c.modulus with
    | none =>
      show (none : Option Int) = none ↔
        ∃ c2 ∈ c :: rest, mod_inv (product.tdiv c2.modulus) c2.modulus = none
      exact ⟨fun _ => ⟨c, List.mem_cons_self c rest, hmi⟩, fun _ => rfl⟩
    | some inv =>
      show crSum product rest (s + c.remainder * inv * product.tdiv c.modulus) = none ↔
        ∃ c2 ∈ c :: rest, mod_inv (product.tdiv c2.modulus) c2.modulus = none
      rw [ih]
      constructor
      · rintro ⟨c2, hc2, hc2n⟩
        exact ⟨c2, List.mem_cons_of_mem c hc2, hc2n⟩
      · rintro ⟨c2, hc2, hc2n⟩
        rcases List.mem_cons.mp hc2 with rfl | hc2m
        · rw [hmi] at hc2n
          exact absurd hc2n (by simp)
        · exact ⟨c2, hc2m, hc2n⟩

/-- The contribution of one constraint to the sum, when its inverse exists. -/
def crTerm (product : Int) (c : Constraint) : Int :=
  c.remainder * ((mod_inv (product.tdiv c.modulus) c.modulus).getD 0) *
    (product.tdiv c.modulus)

theorem crSum_some (product : Int) (cs : List Constraint) (s : Int)
    (h : ∀ c ∈ cs, (mod_inv (product.tdiv c.modulus) c.modulus).isSome) :
    crSum product cs s = some (s + (cs.map (crTerm product)).sum) := by
  induction cs generalizing s with
  | nil => simp [crSum]
  | cons c rest ih =>
    rw [crSum]
    obtain ⟨inv, hinv⟩ :=
      Option.isSome_iff_exists.mp (h c (List.mem_cons_self c rest))
    rw [hinv]
    show crSum product rest (s + c.remainder * inv * product.tdiv c.modulus)
      = some (s + ((c :: rest).map (crTerm product)).sum)
    rw [ih _ (fun c2 hc2 => h c2 (List.mem_cons_of_mem c hc2))]
    rw [List.map_cons, List.sum_cons]
    congr 1
    rw [crTerm, hinv]
    simp only [Option.getD_some]
    ring

theorem isCoprime_list_prod (m : Int) (l : List Int) (h : ∀ x ∈ l, IsCoprime m x) :
    IsCoprime m l.prod := by
  induction l with
  | nil => exact isCoprime_one_right
  | cons x xs ih =>
    rw [List.prod_cons]
    exact (h x (List.mem_cons_self x xs)).mul_right
      (ih (fun y hy => h y (List.mem_cons_of_mem x hy)))

theorem list_coprime_prod_dvd (l : List Int) (z : Int)
    (hp : l.Pairwise (fun a b => Int.gcd a b = 1)) (hd : ∀ x ∈ l, x ∣ z) :
    l.prod ∣ z := by
  induction l with
  | nil => simp
  | cons x xs ih =>
    rw [List.prod_cons]
    rcases List.pairwise_cons.mp hp with ⟨hx, hxs⟩
    have hcop : IsCoprime x xs.prod :=
      isCoprime_list_prod x xs
        (fun y hy => Int.gcd_eq_one_iff_coprime.mp (hx y hy))
    exact hcop.mul_dvd (hd x (List.mem_cons_self x xs))
      (ih hxs (fun y hy => hd y (List.mem_cons_of_mem x hy)))

theorem prod_split (L1 L2 : List Constraint) (c : Constraint) :
    (((L1 ++ c :: L2).map (·.modulus)).prod : Int)
      = c.modulus * (((L1 ++ L2).map (·.modulus)).prod) := by
  rw [List.map_append, List.prod_append, List.map_cons, List.prod_cons,
    List.map_append, List.prod_append]
  ring

theorem pairwise_split_coprime (L1 L2 : List Constraint) (c : Constraint)
    (Hcop : ((L1 ++ c :: L2).map (·.modulus)).Pairwise
      (fun a b => Int.gcd a b = 1)) :
    ∀ c2 ∈ L1 ++ L2, IsCoprime c.modulus c2.modulus := by
  rw [List.map_append, List.pairwise_append] at Hcop
  rcases Hcop with ⟨h1, h2, h12⟩
  rw [List.map_cons, List.pairwise_cons] at h2
  rcases h2 with ⟨hc2, _⟩
  intro c2 hc2m
  rcases List.mem_append.mp hc2m with hm | hm
  · have := h12 c2.modulus (List.mem_map_of_mem _ hm) c.modulus
      (List.mem_cons_self _ _)
    rw [Int.gcd_comm] at this
    exact Int.gcd_eq_one_iff_coprime.mp this
  · exact Int.gcd_eq_one_iff_coprime.mp (hc2 c2.modulus (List.mem_map_of_mem _ hm))

end Aoc2020
namespace Aoc2020

/-- **C8** (confirmed).  For every list of constraints with positive,
pairwise-coprime moduli and remainders in range, `chinese_remainder`
returns `Some n` with `n % modulus = remainder` (Rust truncating `%`) for
every constraint, `n` unique modulo the product of the moduli (any other
solution differs by a multiple of the product, and `0 ≤ n <` product); and
the two worked examples: constraints `(3,2),(5,3),(7,2)` give `23`, and the
five `new_invert_remainder` bus constraints give `1068781`. -/
theorem c8_chinese_remainder (cs : List Constraint)
    (Hpos : ∀ c ∈ cs, 0 < c.modulus)
    (Hrem : ∀ c ∈ cs, 0 ≤ c.remainder ∧ c.remainder < c.modulus)
    (Hcop : (cs.map (·.modulus)).Pairwise fun a b => Int.gcd a b = 1) :
    (∃ n, chinese_remainder cs = some n ∧ 0 ≤ n ∧ n < (cs.map (·.modulus)).prod ∧
      (∀ c ∈ cs, n.tmod c.modulus = c.remainder) ∧
      ∀ n2 : Int, (∀ c ∈ cs, n2.tmod c.modulus = c.remainder) →
        (cs.map (·.modulus)).prod ∣ n2 - n) ∧
    chinese_remainder [⟨3, 2⟩, ⟨5, 3⟩, ⟨7, 2⟩] = some 23 ∧
    chinese_remainder [Constraint.new_invert_remainder 7 0,
      Constraint.new_invert_remainder 13 1, Constraint.new_invert_remainder 59 4,
      Constraint.new_invert_remainder 31 6,
      Constraint.new_invert_remainder 19 7] = some 1068781 := by
  refine ⟨?_, by decide, by decide⟩
  set product := ((cs.map (·.modulus)).prod : Int) with hproddef
  have hprodpos : 0 < product := List.prod_pos (by
    intro a ha
    rcases List.mem_map.mp ha with ⟨c, hc, rfl⟩
    exact Hpos c hc)
  have key1 : ∀ c ∈ cs, 0 ≤ product.tdiv c.modulus ∧
      (mod_inv (product.tdiv c.modulus) c.modulus).isSome := by
    intro c hc
    obtain ⟨L1, L2, hsplit⟩ := List.append_of_mem hc
    have hm : 0 < c.modulus := Hpos c hc
    have hrest_def : product = c.modulus * (((L1 ++ L2).map (·.modulus)).prod) := by
      rw [hproddef, hsplit]
      exact prod_split L1 L2 c
    have hmem_of_split : ∀ c2 ∈ L1 ++ L2, c2 ∈ cs := by
      intro c2 h2
      rw [hsplit]
      rcases List.mem_append.mp h2 with h | h
      · exact List.mem_append_left _ h
      · exact List.mem_append_right _ (List.mem_cons_of_mem c h)
    have hrestpos : 0 < (((L1 ++ L2).map (·.modulus)).prod : Int) := List.prod_pos (by
      intro a ha
      rcases List.mem_map.mp ha with ⟨c2, hc2, rfl⟩
      exact Hpos c2 (hmem_of_split c2 hc2))
    have htdiv : product.tdiv c.modulus = ((L1 ++ L2).map (·.modulus)).prod := by
      rw [hrest_def]
      exact Int.mul_tdiv_cancel_left _ (ne_of_gt hm)
    have hcop_all : ∀ c2 ∈ L1 ++ L2, IsCoprime c.modulus c2.modulus :=
      pairwise_split_coprime L1 L2 c (by rw [← hsplit]; exact Hcop)
    have hcoprest : IsCoprime c.modulus (((L1 ++ L2).map (·.modulus)).prod) :=
      isCoprime_list_prod _ _ (by
        intro x hx
        rcases List.mem_map.mp hx with ⟨c2, hc2, rfl⟩
        exact hcop_all c2 hc2)
    have hgcd1 : Int.gcd (product.tdiv c.modulus) c.modulus = 1 := by
      rw [htdiv]
      exact Int.isCoprime_iff_gcd_eq_one.mp hcoprest.symm
    have hp0 : 0 ≤ product.tdiv c.modulus := by
      rw [htdiv]
      exact le_of_lt hrestpos
    refine ⟨hp0, ?_⟩
    cases hmi : mod_inv (product.tdiv c.modulus) c.modulus with
    | none =>
      exact absurd hgcd1 ((mod_inv_none_iff _ _ hp0 (le_of_lt hm)).mp hmi)
    | some inv => rfl
  have key2 : ∀ c ∈ cs,
      ((cs.map (crTerm product)).sum ≡ c.remainder [ZMOD c.modulus]) := by
    intro c hc
    obtain ⟨L1, L2, hsplit⟩ := List.append_of_mem hc
    have hm : 0 < c.modulus := Hpos c hc
    have hrest_def : product = c.modulus * (((L1 ++ L2).map (·.modulus)).prod) := by
      rw [hproddef, hsplit]
      exact prod_split L1 L2 c
    have hmem_of_split : ∀ c2 ∈ L1 ++ L2, c2 ∈ cs := by
      intro c2 h2
      rw [hsplit]
      rcases List.mem_append.mp h2 with h | h
      · exact List.mem_append_left _ h
      · exact List.mem_append_right _ (List.mem_cons_of_mem c h)
    have hcop_all : ∀ c2 ∈ L1 ++ L2, IsCoprime c.modulus c2.modulus :=
      pairwise_split_coprime L1 L2 c (by rw [← hsplit]; exact Hcop)
    have hdvd_term : ∀ c2 ∈ L1 ++ L2, c.modulus ∣ crTerm product c2 := by
      intro c2 h2
      have hm2 : 0 < c2.modulus := Hpos c2 (hmem_of_split c2 h2)
      have hm2prod : c2.modulus ∣ product :=
        List.dvd_prod (List.mem_map_of_mem _ (hmem_of_split c2 h2))
      have hmmdvd : c.modulus * c2.modulus ∣ product :=
        (hcop_all c2 h2).mul_dvd ⟨_, hrest_def⟩ hm2prod
      have hex : c2.modulus * (product.tdiv c2.modulus) = product :=
        Int.mul_tdiv_cancel' hm2prod
      have hdv : c.modulus ∣ product.tdiv c2.modulus := by
        have h1 : c2.modulus * c.modulus ∣ c2.modulus * (product.tdiv c2.modulus) := by
          rw [hex]
          rwa [mul_comm] at hmmdvd
        exact (mul_dvd_mul_iff_left (ne_of_gt hm2)).mp h1
      exact hdv.mul_left _
    obtain ⟨hp0, hsome⟩ := key1 c hc
    obtain ⟨inv, hinv⟩ := Option.isSome_iff_exists.mp hsome
    obtain ⟨hinv0, hinvlt, hinvmod⟩ :=
      mod_inv_some_spec (product.tdiv c.modulus) c.modulus inv hp0 hm hinv
    have hsum_split : (cs.map (crTerm product)).sum
        = (L1.map (crTerm product)).sum +
          (crTerm product c + (L2.map (crTerm product)).sum) := by
      rw [hsplit, List.map_append, List.sum_append, List.map_cons, List.sum_cons]
    have hS1 : c.modulus ∣ (L1.map (crTerm product)).sum := List.dvd_sum (by
      intro x hx
      rcases List.mem_map.mp hx with ⟨c2, hc2, rfl⟩
      exact hdvd_term c2 (List.mem_append_left _ hc2))
    have hS2 : c.modulus ∣ (L2.map (crTerm product)).sum := List.dvd_sum (by
      intro x hx
      rcases List.mem_map.mp hx with ⟨c2, hc2, rfl⟩
      exact hdvd_term c2 (List.mem_append_right _ hc2))
    have hsum_ct : (cs.map (crTerm product)).sum ≡ crTerm product c [ZMOD c.modulus] := by
      rw [Int.modEq_iff_dvd]
      have : crTerm product c - (cs.map (crTerm product)).sum
          = -((L1.map (crTerm product)).sum + (L2.map (crTerm product)).sum) := by
        rw [hsum_split]
        ring
      rw [this]
      exact Dvd.dvd.neg_right (dvd_add hS1 hS2)
    have hct : crTerm product c ≡ c.remainder [ZMOD c.modulus] := by
      rw [crTerm, hinv]
      simp only [Option.getD_some]
      calc c.remainder * inv * (product.tdiv c.modulus)
          = c.remainder * ((product.tdiv c.modulus) * inv) := by ring
        _ ≡ c.remainder * 1 [ZMOD c.modulus] := Int.ModEq.mul_left _ hinvmod
        _ = c.remainder := by ring
    exact hsum_ct.trans hct
  have hsomeAll : ∀ c ∈ cs, (mod_inv (product.tdiv c.modulus) c.modulus).isSome :=
    fun c hc => (key1 c hc).2
  set sumall := ((cs.map (crTerm product)).sum : Int) with hsumdef
  have hsumnn : 0 ≤ sumall := List.sum_nonneg (by
    intro x hx
    rcases List.mem_map.mp hx with ⟨c, hc, rfl⟩
    obtain ⟨hp0, hsome⟩ := key1 c hc
    obtain ⟨inv, hinv⟩ := Option.isSome_iff_exists.mp hsome
    obtain ⟨hinv0, _, _⟩ :=
      mod_inv_some_spec (product.tdiv c.modulus) c.modulus inv hp0 (Hpos c hc) hinv
    rw [crTerm, hinv]
    simp only [Option.getD_some]
    exact mul_nonneg (mul_nonneg (Hrem c hc).1 hinv0) hp0)
  have hcr : chinese_remainder cs = some (sumall.tmod product) := by
    have h1 := crSum_some product cs 0 hsomeAll
    rw [zero_add, ← hsumdef] at h1
    show (match crSum product cs 0 with
      | none => none
      | some sum => some (sum.tmod product)) = some (sumall.tmod product)
    rw [h1]
  have htmodemod : sumall.tmod product = sumall % product :=
    Int.tmod_eq_emod hsumnn (le_of_lt hprodpos)
  have hn0 : 0 ≤ sumall.tmod product := by
    rw [htmodemod]
    exact Int.emod_nonneg _ (ne_of_gt hprodpos)
  have hnlt : sumall.tmod product < product := by
    rw [htmodemod]
    exact Int.emod_lt_of_pos _ hprodpos
  have hncong : ∀ c ∈ cs, sumall.tmod product ≡ c.remainder [ZMOD c.modulus] := by
    intro c hc
    have hmdvd : c.modulus ∣ product := List.dvd_prod (List.mem_map_of_mem _ hc)
    calc sumall.tmod product ≡ sumall [ZMOD c.modulus] :=
        Int.ModEq.of_dvd hmdvd (tmod_modEq sumall product)
    _ ≡ c.remainder [ZMOD c.modulus] := key2 c hc
  refine ⟨sumall.tmod product, hcr, hn0, hnlt, ?_, ?_⟩
  · intro c hc
    have hm : 0 < c.modulus := Hpos c hc
    have h1 : (sumall.tmod product).tmod c.modulus
        = (sumall.tmod product) % c.modulus :=
      Int.tmod_eq_emod hn0 (le_of_lt hm)
    rw [h1]
    have h2 := hncong c hc
    unfold Int.ModEq at h2
    rw [h2]
    exact Int.emod_eq_of_lt (Hrem c hc).1 (Hrem c hc).2
  · intro n2 hn2
    apply list_coprime_prod_dvd _ _ Hcop
    intro x hx
    rcases List.mem_map.mp hx with ⟨c, hc, rfl⟩
    have ha : n2 ≡ c.remainder [ZMOD c.modulus] := by
      calc n2 ≡ n2.tmod c.modulus [ZMOD c.modulus] := (tmod_modEq _ _).symm
      _ = c.remainder := hn2 c hc
    have hb : sumall.tmod product ≡ c.remainder [ZMOD c.modulus] := hncong c hc
    exact Int.ModEq.dvd (hb.trans ha.symm)

end Aoc2020
namespace Aoc2020

theorem crt_tdiv_nonneg_gcd (cs : List Constraint) (c : Constraint) (hc : c ∈ cs)
    (Hpos : ∀ c2 ∈ cs, 0 < c2.modulus)
    (Hcop : (cs.map (·.modulus)).Pairwise fun a b => Int.gcd a b = 1) :
    0 ≤ (((cs.map (·.modulus)).prod : Int)).tdiv c.modulus ∧
    Int.gcd ((((cs.map (·.modulus)).prod : Int)).tdiv c.modulus) c.modulus = 1 := by
  obtain ⟨L1, L2, hsplit⟩ := List.append_of_mem hc
  have hm : 0 < c.modulus := Hpos c hc
  have hrest_def : ((cs.map (·.modulus)).prod : Int)
      = c.modulus * (((L1 ++ L2).map (·.modulus)).prod) := by
    rw [hsplit]
    exact prod_split L1 L2 c
  have hmem_of_split : ∀ c2 ∈ L1 ++ L2, c2 ∈ cs := by
    intro c2 h2
    rw [hsplit]
    rcases List.mem_append.mp h2 with h | h
    · exact List.mem_append_left _ h
    · exact List.mem_append_right _ (List.mem_cons_of_mem c h)
  have hrestpos : 0 < (((L1 ++ L2).map (·.modulus)).prod : Int) := List.prod_pos (by
    intro a ha
    rcases List.mem_map.mp ha with ⟨c2, hc2, rfl⟩
    exact Hpos c2 (hmem_of_split c2 hc2))
  have htdiv : (((cs.map (·.modulus)).prod : Int)).tdiv c.modulus
      = ((L1 ++ L2).map (·.modulus)).prod := by
    rw [hrest_def]
    exact Int.mul_tdiv_cancel_left _ (ne_of_gt hm)
  have hcop_all : ∀ c2 ∈ L1 ++ L2, IsCoprime c.modulus c2.modulus :=
    pairwise_split_coprime L1 L2 c (by rw [← hsplit]; exact Hcop)
  have hcoprest : IsCoprime c.modulus (((L1 ++ L2).map (·.modulus)).prod) :=
    isCoprime_list_prod _ _ (by
      intro x hx
      rcases List.mem_map.mp hx with ⟨c2, hc2, rfl⟩
      exact hcop_all c2 hc2)
  constructor
  · rw [htdiv]
    exact le_of_lt hrestpos
  · rw [htdiv]
    exact Int.isCoprime_iff_gcd_eq_one.mp hcoprest.symm

/-- **C9** (confirmed).  For every non-empty list of constraints with
positive moduli, `chinese_remainder` returns `None` exactly when the moduli
are not pairwise coprime (equivalently, some modulus has no modular inverse
with respect to the product of the remaining moduli, which is what the
`mod_inv` call inside the loop checks). -/
theorem c9_chinese_remainder_none_iff (cs : List Constraint) (_hne : cs ≠ [])
    (Hpos : ∀ c ∈ cs, 0 < c.modulus) :
    chinese_remainder cs = none ↔
      ¬ (cs.map (·.modulus)).Pairwise fun a b => Int.gcd a b = 1 := by
  have hprodpos : 0 < ((cs.map (·.modulus)).prod : Int) := List.prod_pos (by
    intro a ha
    rcases List.mem_map.mp ha with ⟨c, hc, rfl⟩
    exact Hpos c hc)
  have hA : chinese_remainder cs = none ↔
      crSum ((cs.map (·.modulus)).prod) cs 0 = none := by
    show (match crSum ((cs.map (·.modulus)).prod) cs 0 with
      | none => none
      | some sum => some (sum.tmod ((cs.map (·.modulus)).prod))) = none ↔ _
    cases h : crSum ((cs.map (·.modulus)).prod) cs 0 with
    | none => simp
    | some s => simp
  rw [hA, crSum_none_iff]
  constructor
  · rintro ⟨c, hc, hnone⟩ HPW
    obtain ⟨hp0, hgcd1⟩ := crt_tdiv_nonneg_gcd cs c hc Hpos HPW
    rw [mod_inv_none_iff _ _ hp0 (le_of_lt (Hpos c hc))] at hnone
    exact hnone hgcd1
  · intro hnpw
    rw [List.pairwise_iff_getElem] at hnpw
    push_neg at hnpw
    obtain ⟨i, j, hi, hj, hij, hgne⟩ := hnpw
    have hic : i < cs.length := by simpa using hi
    have hjc : j < cs.length := by simpa using hj
    have hgne2 : Int.gcd cs[i].modulus cs[j].modulus ≠ 1 := by
      have e1 : (cs.map (·.modulus))[i] = cs[i].modulus := List.getElem_map _
      have e2 : (cs.map (·.modulus))[j] = cs[j].modulus := List.getElem_map _
      rw [e1, e2] at hgne
      exact hgne
    refine ⟨cs[i], List.getElem_mem hic, ?_⟩
    have hmipos : 0 < cs[i].modulus := Hpos _ (List.getElem_mem hic)
    have hmjpos : 0 < cs[j].modulus := Hpos _ (List.getElem_mem hjc)
    have hp0 : 0 ≤ (((cs.map (·.modulus)).prod : Int)).tdiv cs[i].modulus :=
      Int.tdiv_nonneg (le_of_lt hprodpos) (le_of_lt hmipos)
    rw [mod_inv_none_iff _ _ hp0 (le_of_lt hmipos)]
    intro hone
    have hsplit : cs = cs.take i ++ cs[i] :: cs.drop (i + 1) := by
      rw [← List.drop_eq_getElem_cons hic, List.take_append_drop]
    have hrest_def : ((cs.map (·.modulus)).prod : Int)
        = cs[i].modulus * (((cs.take i ++ cs.drop (i + 1)).map (·.modulus)).prod) := by
      conv_lhs => rw [hsplit]
      exact prod_split _ _ _
    have htdiv : (((cs.map (·.modulus)).prod : Int)).tdiv cs[i].modulus
        = ((cs.take i ++ cs.drop (i + 1)).map (·.modulus)).prod := by
      rw [hrest_def]
      exact Int.mul_tdiv_cancel_left _ (ne_of_gt hmipos)
    have hjmem : cs[j] ∈ cs.drop (i + 1) := by
      have hlt : j - (i + 1) < (cs.drop (i + 1)).length := by
        rw [List.length_drop]
        omega
      have : (cs.drop (i + 1))[j - (i + 1)] = cs[j] := by
        rw [List.getElem_drop]
        congr 1
        omega
      rw [← this]
      exact List.getElem_mem hlt
    have hjdvd : (cs[j].modulus : Int) ∣
        ((cs.take i ++ cs.drop (i + 1)).map (·.modulus)).prod :=
      List.dvd_prod (List.mem_map_of_mem _ (List.mem_append_right _ hjmem))
    have hg : (Int.gcd cs[i].modulus cs[j].modulus : Int) ∣
        ((((cs.map (·.modulus)).prod : Int)).tdiv cs[i].modulus) := by
      rw [htdiv]
      exact dvd_trans Int.gcd_dvd_right hjdvd
    have hg2 : (Int.gcd cs[i].modulus cs[j].modulus : Int) ∣
        (Int.gcd ((((cs.map (·.modulus)).prod : Int)).tdiv cs[i].modulus)
          cs[i].modulus : Int) :=
      Int.dvd_gcd hg Int.gcd_dvd_left
    rw [hone] at hg2
    have hg3 : Int.gcd cs[i].modulus cs[j].modulus ∣ 1 := by
      exact_mod_cast hg2
    exact hgne2 (Nat.eq_one_of_dvd_one hg3)

end Aoc2020

namespace Aoc2020

/-- Witness for `c8_chinese_remainder` at the classic `(3,2),(5,3),(7,2)`
instance. -/
theorem c8_chinese_remainder_witness :
    ((∀ c ∈ [(⟨3, 2⟩ : Constraint), ⟨5, 3⟩, ⟨7, 2⟩], 0 < c.modulus) ∧
      (∀ c ∈ [(⟨3, 2⟩ : Constraint), ⟨5, 3⟩, ⟨7, 2⟩],
        0 ≤ c.remainder ∧ c.remainder < c.modulus) ∧
      (([(⟨3, 2⟩ : Constraint), ⟨5, 3⟩, ⟨7, 2⟩].map (·.modulus)).Pairwise
        fun a b => Int.gcd a b = 1)) ∧
    ((∃ n, chinese_remainder [(⟨3, 2⟩ : Constraint), ⟨5, 3⟩, ⟨7, 2⟩] = some n ∧
      0 ≤ n ∧ n < ([(⟨3, 2⟩ : Constraint), ⟨5, 3⟩, ⟨7, 2⟩].map (·.modulus)).prod ∧
      (∀ c ∈ [(⟨3, 2⟩ : Constraint), ⟨5, 3⟩, ⟨7, 2⟩], n.tmod c.modulus = c.remainder) ∧
      ∀ n2 : Int,
        (∀ c ∈ [(⟨3, 2⟩ : Constraint), ⟨5, 3⟩, ⟨7, 2⟩], n2.tmod c.modulus = c.remainder) →
        ([(⟨3, 2⟩ : Constraint), ⟨5, 3⟩, ⟨7, 2⟩].map (·.modulus)).prod ∣ n2 - n) ∧
    chinese_remainder [⟨3, 2⟩, ⟨5, 3⟩, ⟨7, 2⟩] = some 23 ∧
    chinese_remainder [Constraint.new_invert_remainder 7 0,
      Constraint.new_invert_remainder 13 1, Constraint.new_invert_remainder 59 4,
      Constraint.new_invert_remainder 31 6,
      Constraint.new_invert_remainder 19 7] = some 1068781) :=
  ⟨⟨by decide, by decide, by decide⟩,
    c8_chinese_remainder [⟨3, 2⟩, ⟨5, 3⟩, ⟨7, 2⟩] (by decide) (by decide) (by decide)⟩

/-- Witness for `c9_chinese_remainder_none_iff` at the non-coprime pair of
moduli `2` and `4`. -/
theorem c9_chinese_remainder_none_iff_witness :
    (([(⟨2, 1⟩ : Constraint), ⟨4, 1⟩] ≠ []) ∧
      (∀ c ∈ [(⟨2, 1⟩ : Constraint), ⟨4, 1⟩], 0 < c.modulus)) ∧
    (chinese_remainder [(⟨2, 1⟩ : Constraint), ⟨4, 1⟩] = none ↔
      ¬ ([(⟨2, 1⟩ : Constraint), ⟨4, 1⟩].map (·.modulus)).Pairwise
        fun a b => Int.gcd a b = 1) :=
  ⟨⟨by decide, by decide⟩,
    c9_chinese_remainder_none_iff [⟨2, 1⟩, ⟨4, 1⟩] (by decide) (by decide)⟩

end Aoc2020
namespace Aoc2020

/-! ## `Map::navigate_ctx`

The Rust function runs A* whose `BinaryHeap` is ordered by *g*-cost only
(the `total_cost_guess` f-score map is written but never read, so it is a
dead store and is not modelled).  The heap pops the `Ord`-greatest node:
smallest cost, ties broken by largest lexicographic position; since the
membership check keeps open-set positions distinct, the greatest element
is unique and the model pops exactly it.  `HashMap`s are modelled as
functions `Point → Option _`.  The `u32` cost arithmetic wraps modulo
`2^32` (release mode), modelled explicitly in `navExpand`.  The path
reconstruction loop is bounded by `cost + 1` steps, exact for the
`came_from` chains the loop builds (proved below). -/

/-- `AStarNode` (`AStarNode { cost: u32, position: Point }`): `cost` is
the `u32` g-cost.  Every cost the algorithm
stores is produced by the wrapping `u32` arithmetic in `navExpand` (or is
the literal `0` pushed for the start), so it is a `Nat` below `2^32`;
comparisons on such values coincide with `u32` comparisons. -/
structure AStarNode where
  cost : Nat
  position : Point
deriving DecidableEq, Repr

/-- `impl Ord for AStarNode`:
`other.cost.cmp(&self.cost).then_with(|| self.position.cmp(&other.position))`. -/
def AStarNode.cmp (a b : AStarNode) : Ordering :=
  (compare b.cost a.cost).then (a.position.cmp b.position)

/-- The `Ord`-greatest element of a non-empty node list (what
`BinaryHeap::pop` returns). -/
def heapMaxAux (x : AStarNode) (l : List AStarNode) : AStarNode :=
  l.foldl (fun acc n => if acc.cmp n = .lt then n else acc) x

/-- `BinaryHeap::pop`: remove and return the `Ord`-greatest element. -/
def heapPop (l : List AStarNode) : Option (AStarNode × List AStarNode) :=
  match l with
  | [] => none
  | x :: xs =>
    let mx := heapMaxAux x xs
    some (mx, l.erase mx)

/-- The mutable state of `navigate_ctx`: the open set, the `g`-cost map
(`cheapest_path_cost`) and the predecessor map (`came_from`). -/
structure NavState where
  openSet : List AStarNode
  cheapest : Point → Option Nat
  cameFrom : Point → Option (Direction × Point)

/-- Process one neighbor direction of a popped node (`for direction in
Direction::iter()` body): skip out-of-bounds neighbors, skip `Obstructed`,
otherwise relax: if the tentative cost `cost + 1` (a `u32` addition,
wrapping modulo `2^32` in release mode) beats the recorded cost
(`unwrap_or(u32::MAX)` when absent), record the predecessor and cost and
push the neighbor unless its position is already in the open set.  `none`
is the tile-buffer panic (impossible on maps satisfying the length
invariant). -/
def navExpand (classify : T → Traversable) (m : Map T) (pos : Point) (cost : Nat)
    (st : NavState) (d : Direction) : Option NavState :=
  let nb := pos.step d
  if m.inBounds nb then
    match m.indexPoint nb with
    | none => none
    | some t =>
      match classify t with
      | .obstructed => some st
      | _ =>
        let tentative := (cost + 1) % u32Mod
        let better : Bool :=
          match st.cheapest nb with
          | none => tentative < u32Max
          | some c => tentative < c
        if better then
          some
            { openSet :=
                if st.openSet.all (fun e => e.position ≠ nb) then
                  st.openSet ++ [⟨tentative, nb⟩]
                else st.openSet,
              cheapest := fun q => if q = nb then some tentative else st.cheapest q,
              cameFrom := fun q => if q = nb then some (d, pos) else st.cameFrom q }
        else some st
  else some st

/-- Fold `navExpand` over the four directions, in `Direction::iter()`
order. -/
def navExpandDirs (classify : T → Traversable) (m : Map T) (pos : Point) (cost : Nat) :
    List Direction → NavState → Option NavState
  | [], st => some st
  | d :: ds, st =>
    match navExpand classify m pos cost st d with
    | none => none
    | some st2 => navExpandDirs classify m pos cost ds st2

/-- The reconstruction loop: repeatedly `came_from.remove(&current)`,
pushing each removed direction, and reverse at the end.  The fuel is an
artifact of the embedding; `cost + 1` steps suffice for the chains the
algorithm builds (proved below), matching the Rust loop, which runs once
per chain link. -/
def walkBack : Nat → (Point → Option (Direction × Point)) → Point →
    List Direction → Option (List Direction)
  | 0, _, _, _ => none
  | fuel + 1, cf, cur, acc =>
    match cf cur with
    | none => some acc.reverse
    | some (d, pred) =>
      walkBack fuel (fun q => if q = cur then none else cf q) pred (acc ++ [d])

/-- Outcome of a `navigate` run.  `fuelOut` is an artifact of the fuel
embedding and is proved unreachable; `panicked` is a tile-buffer panic,
unreachable on maps satisfying the length invariant. -/
inductive NavOut where
  | fuelOut
  | panicked
  | done (result : Option (List Direction))
deriving DecidableEq, Repr

/-- The `while let Some(AStarNode { cost, position }) = open_set.pop()`
loop of `navigate_ctx`. -/
def navGo (classify : T → Traversable) (m : Map T) (tgt : Point) :
    Nat → NavState → NavOut
  | 0, _ => .fuelOut
  | fuel + 1, st =>
    match heapPop st.openSet with
    | none => .done none
    | some (node, rest) =>
      if node.position = tgt then
        match walkBack (node.cost + 1) st.cameFrom node.position [] with
        | none => .fuelOut
        | some path => .done (some path)
      else
        match navExpandDirs classify m node.position node.cost Direction.list
            { st with openSet := rest } with
        | none => .panicked
        | some st2 => navGo classify m tgt fuel st2

/-- Fuel bound: each position enters the open set at most once (proved
below), so at most `tiles.length + 1` pops occur. -/
def navFuel (m : Map T) : Nat := m.tiles.length + 2

/-- `Map::navigate_ctx` (= `navigate` with the unit context): push the
start with cost 0, seed the cost map with `from ↦ 0` (the f-score seed is
a dead store), and loop. -/
def navigate (classify : T → Traversable) (m : Map T) (f t : Point) : NavOut :=
  navGo classify m t (navFuel m)
    { openSet := [⟨0, f⟩],
      cheapest := fun q => if q = f then some 0 else none,
      cameFrom := fun _ => none }

end Aoc2020

namespace Aoc2020

/-! ### Specification-side path predicates for `navigate` -/

/-- A point the search may enter: in bounds, and its tile does not
classify as `Obstructed`. -/
def navOpen (classify : T → Traversable) (m : Map T) (p : Point) : Prop :=
  m.inBounds p = true ∧ ∃ t, m.indexPoint p = some t ∧ classify t ≠ .obstructed

/-- `Walk classify m p ds q`: starting at `p`, the direction list `ds`
leads to `q`, every *entered* point being in-bounds and non-Obstructed
(the start itself is unconstrained, matching `navigate_ctx`, which never
inspects the start tile). -/
inductive Walk (classify : T → Traversable) (m : Map T) : Point → List Direction → Point → Prop where
  | nil (p : Point) : Walk classify m p [] p
  | cons {p q : Point} {d : Direction} {ds : List Direction} :
      navOpen classify m (p.step d) →
      Walk classify m (p.step d) ds q →
      Walk classify m p (d :: ds) q

theorem Walk.append_step {classify : T → Traversable} {m : Map T}
    {p u : Point} {ds : List Direction} (h : Walk classify m p ds u)
    (d : Direction) (hop : navOpen classify m (u.step d)) :
    Walk classify m p (ds ++ [d]) (u.step d) := by
  induction h with
  | nil r => exact Walk.cons hop (Walk.nil _)
  | cons hop2 _ ih => exact Walk.cons hop2 (ih hop)

theorem Walk.concat_elim {classify : T → Traversable} {m : Map T}
    {p q : Point} {ds : List Direction} (h : Walk classify m p ds q)
    (hne : ds ≠ []) :
    ∃ ds1 d u, ds = ds1 ++ [d] ∧ Walk classify m p ds1 u ∧ q = u.step d ∧
      navOpen classify m q := by
  induction h with
  | nil r => exact absurd rfl hne
  | @cons p2 q2 d2 ds2 hop hw ih =>
    cases hds2 : ds2 with
    | nil =>
      cases hds2 ▸ hw with
      | nil => exact ⟨[], d2, p2, by simp, Walk.nil _, rfl, hop⟩
    | cons e es =>
      obtain ⟨ds1, d, u, hsplit, hw1, hq, hopq⟩ := ih (by simp [hds2])
      exact ⟨d2 :: ds1, d, u, by rw [← hds2, hsplit]; rfl, Walk.cons hop hw1, hq, hopq⟩

theorem step_manhattan_le (a b : Point) (d : Direction) :
    (Point.sub b a).manhattan ≤ (Point.sub b (a.step d)).manhattan + 1 := by
  have hx : |b.x - a.x| ≤ |b.x - (a.step d).x| + |(a.step d).x - a.x| :=
    abs_sub_le b.x (a.step d).x a.x
  have hy : |b.y - a.y| ≤ |b.y - (a.step d).y| + |(a.step d).y - a.y| :=
    abs_sub_le b.y (a.step d).y a.y
  have hd : |(a.step d).x - a.x| + |(a.step d).y - a.y| = 1 := by
    cases d <;> simp [Point.step, Direction.deltas]
  unfold Point.manhattan Point.sub
  simp only
  omega

theorem walk_manhattan_le {classify : T → Traversable} {m : Map T}
    {p q : Point} {ds : List Direction} (h : Walk classify m p ds q) :
    (Point.sub q p).manhattan ≤ (ds.length : Int) := by
  induction h with
  | nil r =>
    simp [Point.manhattan, Point.sub]
  | @cons p2 q2 d2 ds2 hop hw ih =>
    calc (Point.sub q2 p2).manhattan
        ≤ (Point.sub q2 (p2.step d2)).manhattan + 1 := step_manhattan_le p2 q2 d2
      _ ≤ (ds2.length : Int) + 1 := by omega
      _ = ((d2 :: ds2).length : Int) := by
          rw [List.length_cons]
          push_cast
          ring

theorem step_ne (p : Point) (d : Direction) : p.step d ≠ p := by
  intro h
  have hx := congrArg Point.x h
  have hy := congrArg Point.y h
  cases d <;> simp [Point.step, Direction.deltas] at hx hy

theorem indexPoint_isSome_of_inBounds {m : Map T}
    (Hlen : m.tiles.length = m.width * m.height) (Hsz : m.tiles.length < usizeMod)
    {p : Point} (h : m.inBounds p = true) :
    ∃ t, m.indexPoint p = some t ∧
      point2index m.width p.x.toNat p.y.toNat < m.tiles.length := by
  unfold Map.inBounds at h
  simp only [Bool.and_eq_true, decide_eq_true_eq] at h
  obtain ⟨⟨⟨hx0, hy0⟩, hxw⟩, hyh⟩ := h
  have hw : p.x < (m.width : Int) := lt_of_lt_of_le hxw (by
    unfold intBound
    split
    · exact le_rfl
    · exact le_of_not_le (by assumption))
  have hh : p.y < (m.height : Int) := lt_of_lt_of_le hyh (by
    unfold intBound
    split
    · exact le_rfl
    · exact le_of_not_le (by assumption))
  have hxn : p.x.toNat < m.width := by omega
  have hyn : p.y.toNat < m.height := by omega
  have hidx : p.x.toNat + p.y.toNat * m.width < m.tiles.length := by
    rw [Hlen]
    calc p.x.toNat + p.y.toNat * m.width
        < m.width + p.y.toNat * m.width := by omega
      _ = (p.y.toNat + 1) * m.width := by ring
      _ ≤ m.height * m.width := Nat.mul_le_mul_right _ (by omega)
      _ = m.width * m.height := Nat.mul_comm _ _
  have hp2i : point2index m.width p.x.toNat p.y.toNat
      = p.x.toNat + p.y.toNat * m.width := by
    unfold point2index
    exact Nat.mod_eq_of_lt (lt_trans hidx Hsz)
  refine ⟨m.tiles.get ⟨p.x.toNat + p.y.toNat * m.width, hidx⟩, ?_, ?_⟩
  · unfold Map.indexPoint
    rw [if_neg (by omega), hp2i, List.getElem?_eq_getElem hidx]
    rfl
  · rw [hp2i]
    exact hidx

end Aoc2020
namespace Aoc2020

theorem cmp_lt_cost {a b : AStarNode} (h : a.cmp b = .lt) : b.cost ≤ a.cost := by
  unfold AStarNode.cmp at h
  cases hc : compare b.cost a.cost with
  | lt => exact le_of_lt (Nat.compare_eq_lt.mp hc)
  | eq => exact le_of_eq (Nat.compare_eq_eq.mp hc)
  | gt =>
    rw [hc] at h
    exact absurd h (by simp [Ordering.then])

theorem cmp_not_lt_cost {a b : AStarNode} (h : ¬a.cmp b = .lt) : a.cost ≤ b.cost := by
  by_contra hlt
  apply h
  unfold AStarNode.cmp
  have : compare b.cost a.cost = .lt := Nat.compare_eq_lt.mpr (by omega)
  rw [this]
  rfl

theorem heapMaxAux_mem (x : AStarNode) (l : List AStarNode) :
    heapMaxAux x l ∈ x :: l := by
  induction l generalizing x with
  | nil => exact List.mem_cons_self x []
  | cons n ns ih =>
    show heapMaxAux (if x.cmp n = .lt then n else x) ns ∈ x :: n :: ns
    rcases List.mem_cons.mp (ih (if x.cmp n = .lt then n else x)) with h | h
    · rw [h]
      split
      · exact List.mem_cons_of_mem x (List.mem_cons_self n ns)
      · exact List.mem_cons_self x _
    · exact List.mem_cons_of_mem x (List.mem_cons_of_mem n h)

theorem heapMaxAux_cost_le (l : List AStarNode) :
    ∀ (x : AStarNode), ∀ n ∈ x :: l, (heapMaxAux x l).cost ≤ n.cost := by
  induction l with
  | nil =>
    intro x n hn
    rcases List.mem_cons.mp hn with rfl | h
    · exact le_rfl
    · exact absurd h (List.not_mem_nil n)
  | cons y ys ih =>
    intro x n hn
    have hstep : heapMaxAux x (y :: ys) = heapMaxAux (if x.cmp y = .lt then y else x) ys := rfl
    have hxy1 : (if x.cmp y = .lt then y else x).cost ≤ x.cost := by
      split
      · exact cmp_lt_cost (by assumption)
      · exact le_rfl
    have hxy2 : (if x.cmp y = .lt then y else x).cost ≤ y.cost := by
      split
      · exact le_rfl
      · exact cmp_not_lt_cost (by assumption)
    have hacc : (heapMaxAux (if x.cmp y = .lt then y else x) ys).cost
        ≤ (if x.cmp y = .lt then y else x).cost :=
      ih _ _ (List.mem_cons_self _ _)
    rcases List.mem_cons.mp hn with rfl | h
    · rw [hstep]
      exact le_trans hacc hxy1
    · rcases List.mem_cons.mp h with rfl | h2
      · rw [hstep]
        exact le_trans hacc hxy2
      · rw [hstep]
        exact ih _ _ (List.mem_cons_of_mem _ h2)

theorem heapPop_spec {l : List AStarNode} {node : AStarNode} {rest : List AStarNode}
    (h : heapPop l = some (node, rest)) :
    node ∈ l ∧ rest = l.erase node ∧ (∀ n ∈ l, node.cost ≤ n.cost) ∧
      l.Perm (node :: rest) := by
  cases l with
  | nil => simp [heapPop] at h
  | cons x xs =>
    unfold heapPop at h
    injection h with h1
    have h3 : heapMaxAux x xs = node := congrArg Prod.fst h1
    have h4 : (x :: xs).erase (heapMaxAux x xs) = rest := congrArg Prod.snd h1
    subst h3
    subst h4
    exact ⟨heapMaxAux_mem x xs, rfl, heapMaxAux_cost_le xs x,
      List.perm_cons_erase (heapMaxAux_mem x xs)⟩

end Aoc2020
namespace Aoc2020

/-- Loop invariant of `navGo`: `cl` is the cost of the last popped node.
The open set holds distinct positions with recorded costs in the band
`[cl, cl+1]`; recorded costs are exact shortest distances (sound + minimal),
every point at distance `≤ cl` is recorded, closed (recorded, not open)
points have all their open neighbors recorded, and `came_from` stores an
`f`-rooted predecessor chain of length = recorded cost. -/
structure NavInv (classify : T → Traversable) (m : Map T) (f : Point)
    (st : NavState) (cl : Nat) : Prop where
  nodup : (st.openSet.map (·.position)).Nodup
  openCheap : ∀ n ∈ st.openSet, st.cheapest n.position = some n.cost
  openLo : ∀ n ∈ st.openSet, cl ≤ n.cost
  openHi : ∀ n ∈ st.openSet, n.cost ≤ cl + 1
  cheapHi : ∀ p c, st.cheapest p = some c → c ≤ cl + 1
  closedLo : ∀ p c, st.cheapest p = some c →
    (∀ n ∈ st.openSet, n.position ≠ p) → c ≤ cl
  domInB : ∀ p c, st.cheapest p = some c → m.inBounds p = true
  baseFrom : st.cheapest f = some 0
  cfFrom : st.cameFrom f = none
  cfChain : ∀ p, p ≠ f → ∀ c, st.cheapest p = some c →
    ∃ d u c2, st.cameFrom p = some (d, u) ∧ p = u.step d ∧
      navOpen classify m p ∧ st.cheapest u = some c2 ∧ c = c2 + 1
  sound : ∀ p c, st.cheapest p = some c →
    ∀ ds, Walk classify m f ds p → c ≤ ds.length
  complete : ∀ q ds, Walk classify m f ds q → ds.length ≤ cl →
    ∃ c, st.cheapest q = some c
  closedRelax : ∀ p c, st.cheapest p = some c →
    (∀ n ∈ st.openSet, n.position ≠ p) →
    ∀ d, navOpen classify m (p.step d) → ∃ c2, st.cheapest (p.step d) = some c2

/-- The domain of the cost map, as an explicit duplicate-free list (used
only to bound the number of loop iterations). -/
def NavDom (st : NavState) (dom : List Point) : Prop :=
  dom.Nodup ∧ ∀ p, (∃ c, st.cheapest p = some c) ↔ p ∈ dom

theorem walkBack_ok {classify : T → Traversable} {m : Map T} {f : Point}
    {st : NavState} {cl : Nat} (inv : NavInv classify m f st cl) :
    ∀ c p, st.cheapest p = some c →
    ∀ cf : Point → Option (Direction × Point),
    (∀ q cq, st.cheapest q = some cq → cq ≤ c → cf q = st.cameFrom q) →
    ∀ fuel acc, c < fuel →
    ∃ ds, walkBack fuel cf p acc = some (ds ++ acc.reverse) ∧
      Walk classify m f ds p ∧ ds.length = c := by
  intro c
  induction c using Nat.strong_induction_on with
  | _ c ih =>
    intro p hp cf hcf fuel acc hfuel
    match fuel, hfuel with
    | fu + 1, hfuel =>
      by_cases hpf : p = f
      · subst hpf
        have hc0 : c = 0 := by
          have h0 := inv.baseFrom
          rw [hp] at h0
          exact Option.some_injective _ h0
        have hcfp : cf p = none := by
          rw [hcf p c hp le_rfl, inv.cfFrom]
        refine ⟨[], ?_, Walk.nil p, by simp [hc0]⟩
        rw [walkBack, hcfp]
        show some acc.reverse = some ([] ++ acc.reverse)
        rw [List.nil_append]
      · obtain ⟨d, u, c2, hcam, hstep, hopen, hu, hc⟩ := inv.cfChain p hpf c hp
        have hcfp : cf p = some (d, u) := by rw [hcf p c hp le_rfl, hcam]
        rw [walkBack, hcfp]
        show ∃ ds, walkBack fu (fun q => if q = p then none else cf q) u (acc ++ [d])
            = some (ds ++ acc.reverse) ∧ Walk classify m f ds p ∧ ds.length = c
        have hcf2 : ∀ q cq, st.cheapest q = some cq → cq ≤ c2 →
            (fun q => if q = p then none else cf q) q = st.cameFrom q := by
          intro q cq hq hle
          by_cases hqp : q = p
          · subst hqp
            rw [hp] at hq
            injection hq with h2
            omega
          · simp only [if_neg hqp]
            exact hcf q cq hq (by omega)
        obtain ⟨ds2, hwb, hw2, hlen2⟩ :=
          ih c2 (by omega) u hu _ hcf2 fu (acc ++ [d]) (by omega)
        refine ⟨ds2 ++ [d], ?_, ?_, ?_⟩
        · rw [hwb]
          congr 1
          rw [List.reverse_append, List.append_assoc]
          rfl
        · rw [hstep]
          exact hw2.append_step d (hstep ▸ hopen)
        · simp [hlen2, hc]

end Aoc2020
namespace Aoc2020

/-- Mid-expansion invariant: the state after popping the node at `pos`
with cost `cl2` (≠ target), while its four neighbor directions are being
processed.  Identical to `NavInv` at level `cl2` except that the relaxation
of closed points is only guaranteed away from `pos`. -/
structure MidInv (classify : T → Traversable) (m : Map T) (f tgt pos : Point)
    (cl2 : Nat) (st : NavState) : Prop where
  nodup : (st.openSet.map (·.position)).Nodup
  openCheap : ∀ n ∈ st.openSet, st.cheapest n.position = some n.cost
  openLo : ∀ n ∈ st.openSet, cl2 ≤ n.cost
  openHi : ∀ n ∈ st.openSet, n.cost ≤ cl2 + 1
  cheapHi : ∀ p c, st.cheapest p = some c → c ≤ cl2 + 1
  closedLo : ∀ p c, st.cheapest p = some c →
    (∀ n ∈ st.openSet, n.position ≠ p) → c ≤ cl2
  domInB : ∀ p c, st.cheapest p = some c → m.inBounds p = true
  baseFrom : st.cheapest f = some 0
  cfFrom : st.cameFrom f = none
  cfChain : ∀ p, p ≠ f → ∀ c, st.cheapest p = some c →
    ∃ d u c2, st.cameFrom p = some (d, u) ∧ p = u.step d ∧
      navOpen classify m p ∧ st.cheapest u = some c2 ∧ c = c2 + 1
  sound : ∀ p c, st.cheapest p = some c →
    ∀ ds, Walk classify m f ds p → c ≤ ds.length
  complete : ∀ q ds, Walk classify m f ds q → ds.length ≤ cl2 →
    ∃ c, st.cheapest q = some c
  relaxedOld : ∀ p c, st.cheapest p = some c →
    (∀ n ∈ st.openSet, n.position ≠ p) → p ≠ pos →
    ∀ d, navOpen classify m (p.step d) → ∃ c2, st.cheapest (p.step d) = some c2
  tgtOpen : ∀ c, st.cheapest tgt = some c → ∃ n ∈ st.openSet, n.position = tgt
  posCost : st.cheapest pos = some cl2
  posNotOpen : ∀ n ∈ st.openSet, n.position ≠ pos

theorem pop_midInv {classify : T → Traversable} {m : Map T} {f tgt : Point}
    {st : NavState} {cl : Nat} {node : AStarNode} {rest : List AStarNode}
    (inv : NavInv classify m f st cl)
    (tgtO : ∀ c, st.cheapest tgt = some c → ∃ n ∈ st.openSet, n.position = tgt)
    (hpop : heapPop st.openSet = some (node, rest))
    (hnt : node.position ≠ tgt) :
    MidInv classify m f tgt node.position node.cost
      { st with openSet := rest } := by
  obtain ⟨hmem, hrest, hmin, hperm⟩ := heapPop_spec hpop
  have hclle : cl ≤ node.cost := inv.openLo node hmem
  have hcl2hi : node.cost ≤ cl + 1 := inv.openHi node hmem
  have hmemsplit : ∀ n ∈ st.openSet, n = node ∨ n ∈ rest := by
    intro n hn
    exact List.mem_cons.mp (hperm.mem_iff.mp hn)
  have hrestsub : ∀ n ∈ rest, n ∈ st.openSet := by
    intro n hn
    exact hperm.mem_iff.mpr (List.mem_cons_of_mem node hn)
  have hposnodup : (node.position :: rest.map (·.position)).Nodup := by
    have h1 : (st.openSet.map (·.position)).Perm
        ((node :: rest).map (·.position)) := hperm.map _
    exact (h1.nodup_iff).mp inv.nodup
  have hposnotrest : ∀ n ∈ rest, n.position ≠ node.position := by
    intro n hn he
    have h2 : node.position ∈ rest.map (·.position) := by
      rw [← he]
      exact List.mem_map_of_mem _ hn
    exact (List.nodup_cons.mp hposnodup).1 h2
  refine
    { nodup := (List.nodup_cons.mp hposnodup).2
      openCheap := fun n hn => inv.openCheap n (hrestsub n hn)
      openLo := fun n hn => hmin n (hrestsub n hn)
      openHi := fun n hn => le_trans (inv.openHi n (hrestsub n hn)) (by omega)
      cheapHi := fun p c hp => le_trans (inv.cheapHi p c hp) (by omega)
      closedLo := ?_
      domInB := inv.domInB
      baseFrom := inv.baseFrom
      cfFrom := inv.cfFrom
      cfChain := inv.cfChain
      sound := inv.sound
      complete := ?_
      relaxedOld := ?_
      tgtOpen := ?_
      posCost := inv.openCheap node hmem
      posNotOpen := hposnotrest }
  · -- closedLo
    intro p c hp hclosed
    by_cases hopen : ∀ n ∈ st.openSet, n.position ≠ p
    · exact le_trans (inv.closedLo p c hp hopen) hclle
    · push_neg at hopen
      obtain ⟨n, hn, hnp⟩ := hopen
      rcases hmemsplit n hn with rfl | hnrest
      · have := inv.openCheap n hn
        rw [hnp, hp] at this
        have hceq : c = n.cost := Option.some_injective _ this
        omega
      · exact absurd hnp (hclosed n hnrest)
  · -- complete at node.cost
    intro q ds hw hlen
    by_cases hlecl : ds.length ≤ cl
    · exact inv.complete q ds hw hlecl
    · have hdsne : ds ≠ [] := by
        intro he
        rw [he] at hlecl
        exact hlecl (by simp)
      obtain ⟨ds1, d, u, hsplit, hw1, hq, hopq⟩ := hw.concat_elim hdsne
      have hlen1 : ds1.length ≤ cl := by
        have : ds.length = ds1.length + 1 := by rw [hsplit]; simp
        omega
      obtain ⟨cp, hcp⟩ := inv.complete u ds1 hw1 hlen1
      have hcple : cp ≤ cl := le_trans (inv.sound u cp hcp ds1 hw1) hlen1
      have huclosed : ∀ n ∈ st.openSet, n.position ≠ u := by
        intro n hn he
        have h4 := inv.openCheap n hn
        rw [he, hcp] at h4
        have h5 : cp = n.cost := Option.some_injective _ h4
        have h6 := hmin n hn
        omega
      obtain ⟨c2, hc2⟩ := inv.closedRelax u cp hcp huclosed d (hq ▸ hopq)
      exact ⟨c2, by rw [← hq] at hc2; exact hc2⟩
  · -- relaxedOld
    intro p c hp hclosed hppos d hop
    refine inv.closedRelax p c hp ?_ d hop
    intro n hn
    rcases hmemsplit n hn with rfl | hnrest
    · intro he
      exact hppos he.symm
    · exact hclosed n hnrest
  · -- tgtOpen
    intro c hc
    obtain ⟨n, hn, hnp⟩ := tgtO c hc
    rcases hmemsplit n hn with rfl | hnrest
    · exact absurd hnp hnt
    · exact ⟨n, hnrest, hnp⟩

end Aoc2020
namespace Aoc2020

/-- The relaxation branch of `navExpand` (its `Free | Halt` arm), named so
the expansion lemmas can be stated once for both traversable tile kinds;
`navExpand_eq_relax` proves it is the value `navExpand` takes on an
in-bounds, non-`Obstructed` neighbor. -/
def navRelaxed (st : NavState) (pos : Point) (cl2 : Nat) (d : Direction) :
    Option NavState :=
  if (match st.cheapest (pos.step d) with
      | none => decide ((cl2 + 1) % u32Mod < u32Max)
      | some c => decide ((cl2 + 1) % u32Mod < c)) = true then
    some { openSet :=
             if st.openSet.all (fun e => e.position ≠ pos.step d) then
               st.openSet ++ [⟨(cl2 + 1) % u32Mod, pos.step d⟩]
             else st.openSet,
           cheapest := fun q =>
             if q = pos.step d then some ((cl2 + 1) % u32Mod) else st.cheapest q,
           cameFrom := fun q =>
             if q = pos.step d then some (d, pos) else st.cameFrom q }
  else some st

theorem navExpand_eq_oob {classify : T → Traversable} {m : Map T} {pos : Point}
    {cl2 : Nat} {st : NavState} {d : Direction}
    (hib : m.inBounds (pos.step d) = false) :
    navExpand classify m pos cl2 st d = some st := by
  simp [navExpand, hib]

theorem navExpand_eq_obstructed {classify : T → Traversable} {m : Map T} {pos : Point}
    {cl2 : Nat} {st : NavState} {d : Direction} {t : T}
    (hib : m.inBounds (pos.step d) = true)
    (ht : m.indexPoint (pos.step d) = some t) (hc : classify t = .obstructed) :
    navExpand classify m pos cl2 st d = some st := by
  unfold navExpand
  rw [if_pos hib, ht]
  show (match classify t with
        | Traversable.obstructed => some st
        | _ => navRelaxed st pos cl2 d) = some st
  rw [hc]

theorem navExpand_eq_relax {classify : T → Traversable} {m : Map T} {pos : Point}
    {cl2 : Nat} {st : NavState} {d : Direction} {t : T}
    (hib : m.inBounds (pos.step d) = true)
    (ht : m.indexPoint (pos.step d) = some t) (hto : classify t ≠ .obstructed) :
    navExpand classify m pos cl2 st d = navRelaxed st pos cl2 d := by
  unfold navExpand
  rw [if_pos hib, ht]
  show (match classify t with
        | Traversable.obstructed => some st
        | _ => navRelaxed st pos cl2 d) = navRelaxed st pos cl2 d
  cases hc : classify t with
  | obstructed => exact absurd hc hto
  | free => rfl
  | halt => rfl

/-- One direction of the expansion loop preserves the mid-expansion
invariant.  Additionally: the cost map only grows, the processed
direction's neighbor has a recorded cost afterwards whenever it is open,
and the open set and the cost-map domain grow together (the accounting
used for the fuel bound). -/
theorem expand_midInv {classify : T → Traversable} {m : Map T} {f tgt pos : Point}
    {cl2 : Nat} {st : NavState}
    (Hix : ∀ p, m.inBounds p = true → ∃ t, m.indexPoint p = some t)
    (Hcl : cl2 + 1 < u32Max)
    (inv : MidInv classify m f tgt pos cl2 st) (d : Direction) :
    ∃ st2, navExpand classify m pos cl2 st d = some st2 ∧
      MidInv classify m f tgt pos cl2 st2 ∧
      (∀ q c, st.cheapest q = some c → ∃ c2, st2.cheapest q = some c2) ∧
      (navOpen classify m (pos.step d) → ∃ c2, st2.cheapest (pos.step d) = some c2) ∧
      ∀ dom, NavDom st dom → ∃ dom2, NavDom st2 dom2 ∧
        dom2.length + st.openSet.length = dom.length + st2.openSet.length := by
  by_cases hib : m.inBounds (pos.step d) = true
  case neg =>
    have hib2 : m.inBounds (pos.step d) = false := by
      cases h : m.inBounds (pos.step d)
      · rfl
      · exact absurd h hib
    refine ⟨st, navExpand_eq_oob hib2, inv, fun q c h => ⟨c, h⟩, ?_, fun dom h => ⟨dom, h, rfl⟩⟩
    rintro ⟨hb, -⟩
    exact absurd hb hib
  case pos =>
    obtain ⟨t, ht⟩ := Hix _ hib
    by_cases hcl : classify t = .obstructed
    · refine ⟨st, navExpand_eq_obstructed hib ht hcl, inv, fun q c h => ⟨c, h⟩, ?_,
        fun dom h => ⟨dom, h, rfl⟩⟩
      rintro ⟨-, t2, ht2, hto⟩
      rw [ht] at ht2
      have he : t = t2 := Option.some_injective _ ht2
      exact (hto (by rw [← he, hcl])).elim
    · have hunf : navExpand classify m pos cl2 st d = navRelaxed st pos cl2 d :=
        navExpand_eq_relax hib ht hcl
      have hMM : u32Max < u32Mod := by decide
      have hwrap : (cl2 + 1) % u32Mod = cl2 + 1 := Nat.mod_eq_of_lt (by omega)
      cases hch : st.cheapest (pos.step d) with
      | some c0 =>
        have hc0le : c0 ≤ cl2 + 1 := inv.cheapHi _ _ hch
        have hbet : (match st.cheapest (pos.step d) with
            | none => decide (cl2 + 1 < u32Max)
            | some c => decide (cl2 + 1 < c)) = false := by
          rw [hch]
          show decide (cl2 + 1 < c0) = false
          exact decide_eq_false (by omega)
        refine ⟨st, ?_, inv, fun q c h => ⟨c, h⟩, fun _ => ⟨c0, hch⟩,
          fun dom h => ⟨dom, h, rfl⟩⟩
        rw [hunf]
        unfold navRelaxed
        rw [hwrap, hbet]
        simp
      | none =>
        have hfresh : ∀ n ∈ st.openSet, n.position ≠ pos.step d := by
          intro n hn he
          have h2 := inv.openCheap n hn
          rw [he, hch] at h2
          exact Option.noConfusion h2
        have hguard : st.openSet.all (fun e => e.position ≠ pos.step d) = true := by
          rw [List.all_eq_true]
          intro e he
          exact decide_eq_true (hfresh e he)
        have hbet : (match st.cheapest (pos.step d) with
            | none => decide (cl2 + 1 < u32Max)
            | some c => decide (cl2 + 1 < c)) = true := by
          rw [hch]
          show decide (cl2 + 1 < u32Max) = true
          exact decide_eq_true Hcl
        have hmem' : ∀ n : AStarNode,
            n ∈ st.openSet ++ [(⟨cl2 + 1, pos.step d⟩ : AStarNode)] ↔
            n ∈ st.openSet ∨ n = ⟨cl2 + 1, pos.step d⟩ := by
          intro n
          simp
        have hopen' : navOpen classify m (pos.step d) := ⟨hib, t, ht, hcl⟩
        have hfne : f ≠ pos.step d := by
          intro he
          have h0 := inv.baseFrom
          rw [he, hch] at h0
          exact Option.noConfusion h0
        have hpne : pos ≠ pos.step d := Ne.symm (step_ne pos d)
        refine ⟨{ openSet := st.openSet ++ [⟨cl2 + 1, pos.step d⟩],
                  cheapest := fun q =>
                    if q = pos.step d then some (cl2 + 1) else st.cheapest q,
                  cameFrom := fun q =>
                    if q = pos.step d then some (d, pos) else st.cameFrom q },
                ?_, ?_, ?_, ?_, ?_⟩
        · rw [hunf]
          unfold navRelaxed
          rw [hwrap, if_pos hbet, if_pos hguard]
        · refine { nodup := ?_, openCheap := ?_, openLo := ?_, openHi := ?_,
                   cheapHi := ?_, closedLo := ?_, domInB := ?_, baseFrom := ?_,
                   cfFrom := ?_, cfChain := ?_, sound := ?_, complete := ?_,
                   relaxedOld := ?_, tgtOpen := ?_, posCost := ?_, posNotOpen := ?_ }
          · -- nodup
            dsimp only
            simp only [List.map_append, List.map_cons, List.map_nil]
            refine List.Nodup.append inv.nodup (List.nodup_singleton _) ?_
            intro a ha hb
            rw [List.mem_singleton] at hb
            subst hb
            obtain ⟨n, hn, hnp⟩ := List.mem_map.mp ha
            exact hfresh n hn hnp
          · -- openCheap
            intro n hn
            rcases (hmem' n).mp hn with h | rfl
            · have hne : n.position ≠ pos.step d := hfresh n h
              dsimp only
              rw [if_neg hne]
              exact inv.openCheap n h
            · dsimp only
              rw [if_pos rfl]
          · -- openLo
            intro n hn
            rcases (hmem' n).mp hn with h | rfl
            · exact inv.openLo n h
            · exact Nat.le_succ cl2
          · -- openHi
            intro n hn
            rcases (hmem' n).mp hn with h | rfl
            · exact inv.openHi n h
            · exact le_rfl
          · -- cheapHi
            intro p c hp
            dsimp only at hp
            by_cases hpe : p = pos.step d
            · rw [if_pos hpe] at hp
              have h2 : cl2 + 1 = c := Option.some_injective _ hp
              omega
            · rw [if_neg hpe] at hp
              exact inv.cheapHi p c hp
          · -- closedLo
            intro p c hp hcl2
            by_cases hpe : p = pos.step d
            · exact absurd hpe.symm
                (hcl2 ⟨cl2 + 1, pos.step d⟩ ((hmem' _).mpr (Or.inr rfl)))
            · dsimp only at hp
              rw [if_neg hpe] at hp
              refine inv.closedLo p c hp ?_
              intro n hn
              exact hcl2 n ((hmem' n).mpr (Or.inl hn))
          · -- domInB
            intro p c hp
            dsimp only at hp
            by_cases hpe : p = pos.step d
            · rw [hpe]
              exact hib
            · rw [if_neg hpe] at hp
              exact inv.domInB p c hp
          · -- baseFrom
            dsimp only
            rw [if_neg hfne]
            exact inv.baseFrom
          · -- cfFrom
            dsimp only
            rw [if_neg hfne]
            exact inv.cfFrom
          · -- cfChain
            intro p hpf c hp
            dsimp only at hp ⊢
            by_cases hpe : p = pos.step d
            · subst hpe
              rw [if_pos rfl] at hp
              have hc : cl2 + 1 = c := Option.some_injective _ hp
              refine ⟨d, pos, cl2, ?_, rfl, hopen', ?_, by omega⟩
              · rw [if_pos rfl]
              · rw [if_neg hpne]
                exact inv.posCost
            · rw [if_neg hpe] at hp
              obtain ⟨d2, u, c2, hcam, hstep, hop, hu, hc⟩ := inv.cfChain p hpf c hp
              have hune : u ≠ pos.step d := by
                intro he
                rw [he, hch] at hu
                exact Option.noConfusion hu
              exact ⟨d2, u, c2, by rw [if_neg hpe]; exact hcam, hstep, hop,
                by rw [if_neg hune]; exact hu, hc⟩
          · -- sound
            intro p c hp ds hw
            dsimp only at hp
            by_cases hpe : p = pos.step d
            · subst hpe
              rw [if_pos rfl] at hp
              have hc : cl2 + 1 = c := Option.some_injective _ hp
              by_cases hlen : ds.length ≤ cl2
              · obtain ⟨c3, hc3⟩ := inv.complete _ ds hw hlen
                rw [hch] at hc3
                exact Option.noConfusion hc3
              · omega
            · rw [if_neg hpe] at hp
              exact inv.sound p c hp ds hw
          · -- complete
            intro q ds hw hlen
            obtain ⟨c, hc⟩ := inv.complete q ds hw hlen
            by_cases hpe : q = pos.step d
            · exact ⟨cl2 + 1, by dsimp only; rw [if_pos hpe]⟩
            · exact ⟨c, by dsimp only; rw [if_neg hpe]; exact hc⟩
          · -- relaxedOld
            intro p c hp hclosed hppos d2 hop2
            by_cases hpe : p = pos.step d
            · exact absurd hpe.symm
                (hclosed ⟨cl2 + 1, pos.step d⟩ ((hmem' _).mpr (Or.inr rfl)))
            · dsimp only at hp
              rw [if_neg hpe] at hp
              have hclosed' : ∀ n ∈ st.openSet, n.position ≠ p := fun n hn =>
                hclosed n ((hmem' n).mpr (Or.inl hn))
              obtain ⟨c2, hc2⟩ := inv.relaxedOld p c hp hclosed' hppos d2 hop2
              by_cases hqe : p.step d2 = pos.step d
              · exact ⟨cl2 + 1, by dsimp only; rw [if_pos hqe]⟩
              · exact ⟨c2, by dsimp only; rw [if_neg hqe]; exact hc2⟩
          · -- tgtOpen
            intro c hc
            by_cases hte : tgt = pos.step d
            · exact ⟨⟨cl2 + 1, pos.step d⟩, (hmem' _).mpr (Or.inr rfl), hte.symm⟩
            · dsimp only at hc
              rw [if_neg hte] at hc
              obtain ⟨n, hn, hnp⟩ := inv.tgtOpen c hc
              exact ⟨n, (hmem' n).mpr (Or.inl hn), hnp⟩
          · -- posCost
            dsimp only
            rw [if_neg hpne]
            exact inv.posCost
          · -- posNotOpen
            intro n hn
            rcases (hmem' n).mp hn with h | rfl
            · exact inv.posNotOpen n h
            · exact step_ne pos d
        · -- cost map only grows
          intro q c hq
          by_cases hqe : q = pos.step d
          · exact ⟨cl2 + 1, by dsimp only; rw [if_pos hqe]⟩
          · exact ⟨c, by dsimp only; rw [if_neg hqe]; exact hq⟩
        · -- processed direction now recorded
          exact fun _ => ⟨cl2 + 1, by dsimp only; rw [if_pos rfl]⟩
        · -- domain accounting
          intro dom hdom
          obtain ⟨hnd, hiff⟩ := hdom
          refine ⟨pos.step d :: dom, ⟨?_, ?_⟩, ?_⟩
          · refine List.nodup_cons.mpr ⟨?_, hnd⟩
            intro hmem2
            obtain ⟨c, hc⟩ := (hiff _).mpr hmem2
            rw [hch] at hc
            exact Option.noConfusion hc
          · intro p
            constructor
            · rintro ⟨c, hc⟩
              dsimp only at hc
              by_cases hpe : p = pos.step d
              · exact List.mem_cons.mpr (Or.inl hpe)
              · rw [if_neg hpe] at hc
                exact List.mem_cons.mpr (Or.inr ((hiff p).mp ⟨c, hc⟩))
            · intro hmem2
              rcases List.mem_cons.mp hmem2 with rfl | h
              · exact ⟨cl2 + 1, by dsimp only; rw [if_pos rfl]⟩
              · by_cases hpe : p = pos.step d
                · exact ⟨cl2 + 1, by dsimp only; rw [if_pos hpe]⟩
                · obtain ⟨c, hc⟩ := (hiff p).mpr h
                  exact ⟨c, by dsimp only; rw [if_neg hpe]; exact hc⟩
          · dsimp only
            simp only [List.length_cons, List.length_append, List.length_nil]
            omega

/-- Folding `navExpand` over a direction list preserves the mid-expansion
invariant; afterwards every processed open direction has a recorded
neighbor cost, and the open set and cost-map domain grew together. -/
theorem expandDirs_midInv {classify : T → Traversable} {m : Map T} {f tgt pos : Point}
    {cl2 : Nat}
    (Hix : ∀ p, m.inBounds p = true → ∃ t, m.indexPoint p = some t)
    (Hcl : cl2 + 1 < u32Max) :
    ∀ (ds : List Direction) (st : NavState),
    MidInv classify m f tgt pos cl2 st →
    ∃ st2, navExpandDirs classify m pos cl2 ds st = some st2 ∧
      MidInv classify m f tgt pos cl2 st2 ∧
      (∀ q c, st.cheapest q = some c → ∃ c2, st2.cheapest q = some c2) ∧
      (∀ d ∈ ds, navOpen classify m (pos.step d) →
        ∃ c2, st2.cheapest (pos.step d) = some c2) ∧
      ∀ dom, NavDom st dom → ∃ dom2, NavDom st2 dom2 ∧
        dom2.length + st.openSet.length = dom.length + st2.openSet.length := by
  intro ds
  induction ds with
  | nil =>
    intro st inv
    exact ⟨st, rfl, inv, fun q c h => ⟨c, h⟩, fun d hd => absurd hd (List.not_mem_nil d),
      fun dom h => ⟨dom, h, rfl⟩⟩
  | cons d ds ih =>
    intro st inv
    obtain ⟨st1, heq1, inv1, mono1, rel1, domf1⟩ := expand_midInv Hix Hcl inv d
    obtain ⟨st2, heq2, inv2, mono2, rel2, domf2⟩ := ih st1 inv1
    refine ⟨st2, ?_, inv2, ?_, ?_, ?_⟩
    · show (match navExpand classify m pos cl2 st d with
            | none => none
            | some st3 => navExpandDirs classify m pos cl2 ds st3) = some st2
      rw [heq1]
      exact heq2
    · intro q c hq
      obtain ⟨c1, hc1⟩ := mono1 q c hq
      exact mono2 q c1 hc1
    · intro d2 hd2 hop
      rcases List.mem_cons.mp hd2 with rfl | hmem
      · obtain ⟨c1, hc1⟩ := rel1 hop
        exact mono2 _ c1 hc1
      · exact rel2 d2 hmem hop
    · intro dom hdom
      obtain ⟨dom1, hdom1, hlen1⟩ := domf1 dom hdom
      obtain ⟨dom2, hdom2, hlen2⟩ := domf2 dom1 hdom1
      exact ⟨dom2, hdom2, by omega⟩

/-- After all four directions have been relaxed, the mid-expansion
invariant upgrades back to the full loop invariant, now at the popped
node's cost level. -/
theorem close_midInv {classify : T → Traversable} {m : Map T} {f tgt pos : Point}
    {cl2 : Nat} {st : NavState}
    (inv : MidInv classify m f tgt pos cl2 st)
    (hrel : ∀ d : Direction, navOpen classify m (pos.step d) →
      ∃ c2, st.cheapest (pos.step d) = some c2) :
    NavInv classify m f st cl2 := by
  refine { nodup := inv.nodup, openCheap := inv.openCheap, openLo := inv.openLo,
           openHi := inv.openHi, cheapHi := inv.cheapHi, closedLo := inv.closedLo,
           domInB := inv.domInB, baseFrom := inv.baseFrom, cfFrom := inv.cfFrom,
           cfChain := inv.cfChain, sound := inv.sound, complete := inv.complete,
           closedRelax := ?_ }
  intro p c hp hclosed d hop
  by_cases hpe : p = pos
  · subst hpe
    exact hrel d hop
  · exact inv.relaxedOld p c hp hclosed hpe d hop

/-- With an empty open set every point reachable by a walk from a
recorded point is itself recorded (the cost map has converged). -/
theorem closed_walk_dom {classify : T → Traversable} {m : Map T} {f : Point}
    {st : NavState} {cl : Nat}
    (inv : NavInv classify m f st cl) (hempty : st.openSet = []) :
    ∀ {p : Point} {ds : List Direction} {q : Point}, Walk classify m p ds q →
    (∃ cp, st.cheapest p = some cp) → ∃ c, st.cheapest q = some c := by
  intro p ds q hw
  induction hw with
  | nil r => exact fun h => h
  | @cons p2 q2 d2 ds2 hop hw ih =>
    intro h
    obtain ⟨cp, hcp⟩ := h
    refine ih ?_
    refine inv.closedRelax p2 cp hcp ?_ d2 hop
    intro n hn
    rw [hempty] at hn
    exact absurd hn (List.not_mem_nil n)

theorem length_flatMap_const {α β : Type} (l : List α) (fmf : α → List β) (k : Nat)
    (h : ∀ a ∈ l, (fmf a).length = k) : (l.flatMap fmf).length = l.length * k := by
  induction l with
  | nil => simp
  | cons a l ih =>
    rw [List.flatMap_cons, List.length_append, h a (List.mem_cons_self a l),
      ih (fun b hb => h b (List.mem_cons_of_mem a hb)), List.length_cons]
    ring

theorem length_allPoints (m : Map T) : (allPoints m).length = m.height * m.width := by
  unfold allPoints
  rw [length_flatMap_const _ _ m.width, List.length_range]
  intro y _
  rw [List.length_map, List.length_range]

theorem mem_allPoints {m : Map T} {p : Point} (h : m.inBounds p = true) :
    p ∈ allPoints m := by
  unfold Map.inBounds at h
  simp only [Bool.and_eq_true, decide_eq_true_eq] at h
  obtain ⟨⟨⟨hx0, hy0⟩, hxw⟩, hyh⟩ := h
  have hw : p.x < (m.width : Int) := lt_of_lt_of_le hxw (by
    unfold intBound
    split
    · exact le_rfl
    · exact le_of_not_le (by assumption))
  have hh : p.y < (m.height : Int) := lt_of_lt_of_le hyh (by
    unfold intBound
    split
    · exact le_rfl
    · exact le_of_not_le (by assumption))
  unfold allPoints
  rw [List.mem_flatMap]
  refine ⟨p.y.toNat, by rw [List.mem_range]; omega, ?_⟩
  rw [List.mem_map]
  refine ⟨p.x.toNat, by rw [List.mem_range]; omega, ?_⟩
  obtain ⟨px, py⟩ := p
  dsimp only at hx0 hy0 ⊢
  congr 1
  · rw [Int.ofNat_eq_natCast]
    omega
  · rw [Int.ofNat_eq_natCast]
    omega

/-- The cost map records only in-bounds points, so its domain size never
exceeds the tile count. -/
theorem navDom_length_le {m : Map T} {classify : T → Traversable} {f : Point}
    {st : NavState} {cl : Nat} {dom : List Point}
    (inv : NavInv classify m f st cl) (hdom : NavDom st dom) :
    dom.length ≤ m.height * m.width := by
  rw [← length_allPoints m]
  refine (List.subperm_of_subset hdom.1 ?_).length_le
  intro p hp
  obtain ⟨c, hc⟩ := (hdom.2 p).mpr hp
  exact mem_allPoints (inv.domInB p c hc)

theorem direction_mem_list (d : Direction) : d ∈ Direction.list := by
  cases d <;> decide

/-- Every recorded cost heads an `f`-rooted predecessor chain whose costs
descend `c, c-1, ..., 0`, giving `c + 1` recorded points with pairwise
distinct costs. -/
theorem cheapest_chain {classify : T → Traversable} {m : Map T} {f : Point}
    {st : NavState} {cl : Nat} (inv : NavInv classify m f st cl) :
    ∀ c p, st.cheapest p = some c →
    ∃ l : List Point, l.length = c + 1 ∧
      ∀ i (hi : i < l.length), st.cheapest (l.get ⟨i, hi⟩) = some (c - i) := by
  intro c
  induction c with
  | zero =>
    intro p hp
    refine ⟨[p], rfl, ?_⟩
    intro i hi
    match i, hi with
    | 0, _ => exact hp
  | succ k ih =>
    intro p hp
    have hpf : p ≠ f := by
      intro he
      rw [he, inv.baseFrom] at hp
      have h2 := Option.some_injective _ hp
      omega
    obtain ⟨d, u, c2, hcam, hstep, hop, hu, hc⟩ := inv.cfChain p hpf (k + 1) hp
    have hc2 : c2 = k := by omega
    rw [hc2] at hu
    obtain ⟨l, hlen, hl⟩ := ih u hu
    refine ⟨p :: l, by rw [List.length_cons, hlen], ?_⟩
    intro i hi
    match i, hi with
    | 0, _ => exact hp
    | i + 1, hi =>
      have hi2 : i < l.length := by
        rw [List.length_cons] at hi
        omega
      have h3 := hl i hi2
      show st.cheapest (l.get ⟨i, hi2⟩) = some (k + 1 - (i + 1))
      have he : k + 1 - (i + 1) = k - i := by omega
      rw [he]
      exact h3

/-- A recorded cost is below the size of the cost map's domain (so in
particular below the tile count): the descending chain of
`cheapest_chain` consists of `c + 1` distinct recorded points. -/
theorem cheapest_cost_lt_dom {classify : T → Traversable} {m : Map T} {f : Point}
    {st : NavState} {cl : Nat} (inv : NavInv classify m f st cl)
    {dom : List Point} (hdom : NavDom st dom) :
    ∀ c p, st.cheapest p = some c → c < dom.length := by
  intro c p hp
  obtain ⟨l, hlen, hl⟩ := cheapest_chain inv c p hp
  have hnd : l.Nodup := by
    rw [List.nodup_iff_injective_get]
    intro i j hij
    have hi := hl i.1 i.2
    have hj := hl j.1 j.2
    rw [hij] at hi
    rw [hj] at hi
    have h4 := Option.some_injective _ hi
    have hi1 : i.1 < c + 1 := by rw [← hlen]; exact i.2
    have hj1 : j.1 < c + 1 := by rw [← hlen]; exact j.2
    exact Fin.ext (by omega)
  have hsub : ∀ q ∈ l, q ∈ dom := by
    intro q hq
    obtain ⟨i, hqe⟩ := List.mem_iff_get.mp hq
    refine (hdom.2 q).mp ⟨c - i.1, ?_⟩
    rw [← hqe]
    exact hl i.1 i.2
  have h5 := (List.subperm_of_subset hnd hsub).length_le
  omega

/-- Main loop correctness: under the loop invariant, with enough fuel,
`navGo` always reaches `done`, returning a shortest walk to the target
when one exists and `none` exactly when the target is unreachable. -/
theorem navGo_ok {classify : T → Traversable} {m : Map T} {f tgt : Point}
    (Hlen : m.tiles.length = m.width * m.height) (Hsz : m.tiles.length < usizeMod)
    (HB : ∀ (st : NavState) (cl : Nat) (dom : List Point),
      NavInv classify m f st cl → NavDom st dom →
      ∀ n ∈ st.openSet, n.cost + 1 < u32Max) :
    ∀ (fuel : Nat) (st : NavState) (cl : Nat) (dom : List Point),
    NavInv classify m f st cl →
    (∀ c, st.cheapest tgt = some c → ∃ n ∈ st.openSet, n.position = tgt) →
    NavDom st dom →
    m.tiles.length + 1 - dom.length + st.openSet.length < fuel →
    (∃ ds, navGo classify m tgt fuel st = .done (some ds) ∧
       Walk classify m f ds tgt ∧
       ∀ ds2, Walk classify m f ds2 tgt → ds.length ≤ ds2.length) ∨
    (navGo classify m tgt fuel st = .done none ∧
       ∀ ds, ¬ Walk classify m f ds tgt) := by
  have Hix : ∀ p, m.inBounds p = true → ∃ t, m.indexPoint p = some t := by
    intro p hp
    obtain ⟨t, ht, -⟩ := indexPoint_isSome_of_inBounds Hlen Hsz hp
    exact ⟨t, ht⟩
  intro fuel
  induction fuel with
  | zero =>
    intro st cl dom inv tgtO hdom hfuel
    omega
  | succ fu ih =>
    intro st cl dom inv tgtO hdom hfuel
    cases hpop : heapPop st.openSet with
    | none =>
      have hempty : st.openSet = [] := by
        cases h : st.openSet with
        | nil => rfl
        | cons x xs =>
          rw [h] at hpop
          exact Option.noConfusion hpop
      have hnone : st.cheapest tgt = none := by
        cases hc : st.cheapest tgt with
        | none => rfl
        | some c =>
          obtain ⟨n, hn, -⟩ := tgtO c hc
          rw [hempty] at hn
          exact absurd hn (List.not_mem_nil n)
      right
      refine ⟨?_, ?_⟩
      · show navGo classify m tgt (fu + 1) st = .done none
        simp only [navGo, hpop]
      · intro ds hw
        obtain ⟨c, hc⟩ := closed_walk_dom inv hempty hw ⟨0, inv.baseFrom⟩
        rw [hnone] at hc
        exact Option.noConfusion hc
    | some pr =>
      obtain ⟨node, rest⟩ := pr
      obtain ⟨hmem, hrest, hmin, hperm⟩ := heapPop_spec hpop
      by_cases hnt : node.position = tgt
      · have hcost : st.cheapest tgt = some node.cost := by
          have h2 := inv.openCheap node hmem
          rw [hnt] at h2
          exact h2
        obtain ⟨ds, hwb, hw, hlends⟩ :=
          walkBack_ok inv node.cost tgt hcost st.cameFrom
            (fun q cq _ _ => rfl) (node.cost + 1) [] (Nat.lt_succ_self _)
        have hwb2 : walkBack (node.cost + 1) st.cameFrom node.position []
            = some ds := by
          rw [hnt, hwb]
          simp
        left
        refine ⟨ds, ?_, hw, ?_⟩
        · simp only [navGo, hpop]
          rw [if_pos hnt, hwb2]
        · intro ds2 hw2
          have h3 := inv.sound tgt node.cost hcost ds2 hw2
          omega
      · have hmid := pop_midInv inv tgtO hpop hnt
        have Hcl : node.cost + 1 < u32Max := HB st cl dom inv hdom node hmem
        obtain ⟨st2, hexp, inv2, mono2, rel2, domf2⟩ :=
          expandDirs_midInv Hix Hcl Direction.list { st with openSet := rest } hmid
        have hrelAll : ∀ d : Direction, navOpen classify m (node.position.step d) →
            ∃ c2, st2.cheapest (node.position.step d) = some c2 :=
          fun d => rel2 d (direction_mem_list d)
        have inv2' : NavInv classify m f st2 node.cost := close_midInv inv2 hrelAll
        have tgtO2 := inv2.tgtOpen
        obtain ⟨dom2, hdom2, hlens⟩ := domf2 dom hdom
        have hlens' : dom2.length + rest.length = dom.length + st2.openSet.length :=
          hlens
        have hred : navGo classify m tgt (fu + 1) st = navGo classify m tgt fu st2 := by
          simp only [navGo, hpop]
          rw [if_neg hnt, hexp]
        have hb1 : dom.length ≤ m.tiles.length := by
          rw [Hlen, Nat.mul_comm]
          exact navDom_length_le inv hdom
        have hb2 : dom2.length ≤ m.tiles.length := by
          rw [Hlen, Nat.mul_comm]
          exact navDom_length_le inv2' hdom2
        have hopenlen : st.openSet.length = rest.length + 1 := by
          rw [hperm.length_eq]
          rfl
        have hfuel2 : m.tiles.length + 1 - dom2.length + st2.openSet.length < fu := by
          omega
        rcases ih st2 node.cost dom2 inv2' tgtO2 hdom2 hfuel2 with h | h
        · left
          rw [hred]
          exact h
        · right
          rw [hred]
          exact h

/-- Master correctness theorem for `navigate`: it terminates without
panic, returns `none` exactly when no 4-directional walk through
non-Obstructed tiles reaches `tgt` from `f`, and otherwise returns a
shortest such walk, of length at least the Manhattan distance. -/
theorem navigate_master {classify : T → Traversable} {m : Map T}
    {f tgt : Point}
    (Hlen : m.tiles.length = m.width * m.height) (Hsz : m.tiles.length < usizeMod)
    (Hf : m.inBounds f = true) (_Htgt : m.inBounds tgt = true)
    (HB : ∀ (st : NavState) (cl : Nat) (dom : List Point),
      NavInv classify m f st cl → NavDom st dom →
      ∀ n ∈ st.openSet, n.cost + 1 < u32Max) :
    (navigate classify m f tgt = .done none ↔
      ¬∃ ds, Walk classify m f ds tgt) ∧
    (∀ ds, navigate classify m f tgt = .done (some ds) →
      Walk classify m f ds tgt ∧
      (∀ ds2, Walk classify m f ds2 tgt → ds.length ≤ ds2.length) ∧
      (Point.sub tgt f).manhattan ≤ (ds.length : Int)) ∧
    ∃ r, navigate classify m f tgt = .done r := by
  have hinit : NavInv classify m f
      { openSet := [⟨0, f⟩],
        cheapest := fun q => if q = f then some 0 else none,
        cameFrom := fun _ => none } 0 := by
    refine { nodup := ?_, openCheap := ?_, openLo := ?_, openHi := ?_,
             cheapHi := ?_, closedLo := ?_, domInB := ?_, baseFrom := ?_,
             cfFrom := ?_, cfChain := ?_, sound := ?_, complete := ?_,
             closedRelax := ?_ }
    · exact List.nodup_singleton f
    · intro n hn
      rw [List.mem_singleton] at hn
      subst hn
      dsimp only
      rw [if_pos rfl]
    · intro n _
      exact Nat.zero_le _
    · intro n hn
      rw [List.mem_singleton] at hn
      subst hn
      exact Nat.zero_le _
    · intro p c hp
      dsimp only at hp
      by_cases hpe : p = f
      · rw [if_pos hpe] at hp
        have h2 : (0 : Nat) = c := Option.some_injective _ hp
        omega
      · rw [if_neg hpe] at hp
        exact Option.noConfusion hp
    · intro p c hp hclosed
      by_cases hpe : p = f
      · exact absurd hpe.symm (hclosed ⟨0, f⟩ (List.mem_singleton_self _))
      · dsimp only at hp
        rw [if_neg hpe] at hp
        exact Option.noConfusion hp
    · intro p c hp
      dsimp only at hp
      by_cases hpe : p = f
      · rw [hpe]
        exact Hf
      · rw [if_neg hpe] at hp
        exact Option.noConfusion hp
    · dsimp only
      rw [if_pos rfl]
    · rfl
    · intro p hpf c hp
      dsimp only at hp
      rw [if_neg hpf] at hp
      exact Option.noConfusion hp
    · intro p c hp ds _
      dsimp only at hp
      by_cases hpe : p = f
      · rw [if_pos hpe] at hp
        have h2 : (0 : Nat) = c := Option.some_injective _ hp
        omega
      · rw [if_neg hpe] at hp
        exact Option.noConfusion hp
    · intro q ds hw hlen
      have hds : ds = [] := List.eq_nil_of_length_eq_zero (by omega)
      subst hds
      cases hw
      exact ⟨0, by dsimp only; rw [if_pos rfl]⟩
    · intro p c hp hclosed d hop
      by_cases hpe : p = f
      · exact absurd hpe.symm (hclosed ⟨0, f⟩ (List.mem_singleton_self _))
      · dsimp only at hp
        rw [if_neg hpe] at hp
        exact Option.noConfusion hp
  have htgtO : ∀ c, (if tgt = f then some 0 else (none : Option Nat)) = some c →
      ∃ n ∈ [(⟨0, f⟩ : AStarNode)], n.position = tgt := by
    intro c hc
    by_cases hte : tgt = f
    · exact ⟨⟨0, f⟩, List.mem_singleton_self _, hte.symm⟩
    · rw [if_neg hte] at hc
      exact Option.noConfusion hc
  have hdom0 : NavDom
      { openSet := [⟨0, f⟩],
        cheapest := fun q => if q = f then some 0 else none,
        cameFrom := fun _ => none } [f] := by
    refine ⟨List.nodup_singleton f, ?_⟩
    intro p
    constructor
    · rintro ⟨c, hc⟩
      dsimp only at hc
      by_cases hpe : p = f
      · rw [hpe]
        exact List.mem_singleton_self f
      · rw [if_neg hpe] at hc
        exact Option.noConfusion hc
    · intro hp
      rw [List.mem_singleton] at hp
      subst hp
      exact ⟨0, by dsimp only; rw [if_pos rfl]⟩
  have hfuel0 : m.tiles.length + 1 - ([f] : List Point).length
      + ([(⟨0, f⟩ : AStarNode)] : List AStarNode).length < navFuel m := by
    unfold navFuel
    simp only [List.length_cons, List.length_nil]
    omega
  have hmain := navGo_ok Hlen Hsz HB (navFuel m)
    { openSet := [⟨0, f⟩],
      cheapest := fun q => if q = f then some 0 else none,
      cameFrom := fun _ => none } 0 [f] hinit htgtO hdom0 hfuel0
  have hnav : navigate classify m f tgt = navGo classify m tgt (navFuel m)
      { openSet := [⟨0, f⟩],
        cheapest := fun q => if q = f then some 0 else none,
        cameFrom := fun _ => none } := rfl
  rcases hmain with ⟨ds, heq, hw, hmin⟩ | ⟨heq, hnw⟩
  · refine ⟨?_, ?_, some ds, by rw [hnav, heq]⟩
    · constructor
      · intro hnone
        rw [hnav, heq] at hnone
        exact absurd (NavOut.done.inj hnone) (Option.some_ne_none ds)
      · intro hne
        exact absurd ⟨ds, hw⟩ hne
    · intro ds2 heq2
      rw [hnav, heq] at heq2
      have hde : ds = ds2 := Option.some_injective _ (NavOut.done.inj heq2)
      subst hde
      exact ⟨hw, fun ds3 hw3 => hmin ds3 hw3, walk_manhattan_le hw⟩
  · refine ⟨?_, ?_, none, by rw [hnav, heq]⟩
    · constructor
      · intro _
        rintro ⟨ds, hw⟩
        exact hnw ds hw
      · intro _
        rw [hnav, heq]
    · intro ds2 heq2
      rw [hnav, heq] at heq2
      exact absurd (NavOut.done.inj heq2).symm (Option.some_ne_none ds2)

theorem indexPoint_mem {m : Map T} {p : Point} {t : T}
    (h : m.indexPoint p = some t) : t ∈ m.tiles := by
  unfold Map.indexPoint at h
  split at h
  · exact Option.noConfusion h
  · exact List.getElem?_mem h

theorem point_eq_of_manhattan_zero {p q : Point}
    (h : (Point.sub q p).manhattan = 0) : q = p := by
  obtain ⟨qx, qy⟩ := q
  obtain ⟨px, py⟩ := p
  unfold Point.manhattan Point.sub at h
  dsimp only at h
  have h1 := abs_nonneg (qx - px)
  have h2 := abs_nonneg (qy - py)
  have h3 : |qx - px| = 0 := by omega
  have h4 : |qy - py| = 0 := by omega
  have h5 := abs_eq_zero.mp h3
  have h6 := abs_eq_zero.mp h4
  congr 1 <;> omega

/-- On a map where every in-bounds point is enterable, a walk of length
exactly the Manhattan distance exists between any two in-bounds points
(move along `x` first, then along `y`; every intermediate point stays in
the bounding box of the endpoints). -/
theorem exists_manhattan_walk {classify : T → Traversable} {m : Map T} {tgt : Point}
    (Hopen : ∀ p, m.inBounds p = true → navOpen classify m p)
    (Htgt : m.inBounds tgt = true) :
    ∀ (n : Nat) (p : Point), m.inBounds p = true →
    (Point.sub tgt p).manhattan = (n : Int) →
    ∃ ds, Walk classify m p ds tgt ∧ ds.length = n := by
  intro n
  induction n with
  | zero =>
    intro p hp hman
    have he : tgt = p := point_eq_of_manhattan_zero (by rw [hman]; rfl)
    exact ⟨[], by rw [he]; exact Walk.nil p, rfl⟩
  | succ k ih =>
    intro p hp hman
    have hpb := hp
    unfold Map.inBounds at hpb
    simp only [Bool.and_eq_true, decide_eq_true_eq] at hpb
    obtain ⟨⟨⟨hpx0, hpy0⟩, hpxw⟩, hpyh⟩ := hpb
    have htb := Htgt
    unfold Map.inBounds at htb
    simp only [Bool.and_eq_true, decide_eq_true_eq] at htb
    obtain ⟨⟨⟨htx0, hty0⟩, htxw⟩, htyh⟩ := htb
    unfold Point.manhattan Point.sub at hman
    dsimp only at hman
    by_cases hx1 : p.x < tgt.x
    · have hp'x : (p.step .right).x = p.x + 1 := rfl
      have hp'y : (p.step .right).y = p.y + 0 := rfl
      have hpb' : m.inBounds (p.step .right) = true := by
        unfold Map.inBounds
        simp only [Bool.and_eq_true, decide_eq_true_eq, hp'x, hp'y]
        refine ⟨⟨⟨?_, ?_⟩, ?_⟩, ?_⟩ <;> omega
      have hman' : (Point.sub tgt (p.step .right)).manhattan = (k : Int) := by
        unfold Point.manhattan Point.sub
        dsimp only
        rw [hp'x, hp'y]
        rw [abs_of_nonneg (a := tgt.x - p.x) (by omega)] at hman
        rw [abs_of_nonneg (a := tgt.x - (p.x + 1)) (by omega)]
        have hyy : tgt.y - (p.y + 0) = tgt.y - p.y := by ring
        rw [hyy]
        push_cast at hman ⊢
        omega
      obtain ⟨ds, hw, hlen⟩ := ih (p.step .right) hpb' hman'
      exact ⟨Direction.right :: ds, Walk.cons (Hopen _ hpb') hw,
        by rw [List.length_cons, hlen]⟩
    · by_cases hx2 : tgt.x < p.x
      · have hp'x : (p.step .left).x = p.x + -1 := rfl
        have hp'y : (p.step .left).y = p.y + 0 := rfl
        have hpb' : m.inBounds (p.step .left) = true := by
          unfold Map.inBounds
          simp only [Bool.and_eq_true, decide_eq_true_eq, hp'x, hp'y]
          refine ⟨⟨⟨?_, ?_⟩, ?_⟩, ?_⟩ <;> omega
        have hman' : (Point.sub tgt (p.step .left)).manhattan = (k : Int) := by
          unfold Point.manhattan Point.sub
          dsimp only
          rw [hp'x, hp'y]
          rw [abs_of_nonpos (a := tgt.x - p.x) (by omega)] at hman
          rw [abs_of_nonpos (a := tgt.x - (p.x + -1)) (by omega)]
          have hyy : tgt.y - (p.y + 0) = tgt.y - p.y := by ring
          rw [hyy]
          push_cast at hman ⊢
          omega
        obtain ⟨ds, hw, hlen⟩ := ih (p.step .left) hpb' hman'
        exact ⟨Direction.left :: ds, Walk.cons (Hopen _ hpb') hw,
          by rw [List.length_cons, hlen]⟩
      · have hxe : |tgt.x - p.x| = 0 := abs_eq_zero.mpr (by omega)
        by_cases hy1 : p.y < tgt.y
        · have hp'x : (p.step .up).x = p.x + 0 := rfl
          have hp'y : (p.step .up).y = p.y + 1 := rfl
          have hpb' : m.inBounds (p.step .up) = true := by
            unfold Map.inBounds
            simp only [Bool.and_eq_true, decide_eq_true_eq, hp'x, hp'y]
            refine ⟨⟨⟨?_, ?_⟩, ?_⟩, ?_⟩ <;> omega
          have hman' : (Point.sub tgt (p.step .up)).manhattan = (k : Int) := by
            unfold Point.manhattan Point.sub
            dsimp only
            rw [hp'x, hp'y]
            rw [hxe, abs_of_nonneg (a := tgt.y - p.y) (by omega)] at hman
            rw [abs_of_nonneg (a := tgt.y - (p.y + 1)) (by omega)]
            have hxx : |tgt.x - (p.x + 0)| = 0 := abs_eq_zero.mpr (by omega)
            rw [hxx]
            push_cast at hman ⊢
            omega
          obtain ⟨ds, hw, hlen⟩ := ih (p.step .up) hpb' hman'
          exact ⟨Direction.up :: ds, Walk.cons (Hopen _ hpb') hw,
            by rw [List.length_cons, hlen]⟩
        · by_cases hy2 : tgt.y < p.y
          · have hp'x : (p.step .down).x = p.x + 0 := rfl
            have hp'y : (p.step .down).y = p.y + -1 := rfl
            have hpb' : m.inBounds (p.step .down) = true := by
              unfold Map.inBounds
              simp only [Bool.and_eq_true, decide_eq_true_eq, hp'x, hp'y]
              refine ⟨⟨⟨?_, ?_⟩, ?_⟩, ?_⟩ <;> omega
            have hman' : (Point.sub tgt (p.step .down)).manhattan = (k : Int) := by
              unfold Point.manhattan Point.sub
              dsimp only
              rw [hp'x, hp'y]
              rw [hxe, abs_of_nonpos (a := tgt.y - p.y) (by omega)] at hman
              rw [abs_of_nonpos (a := tgt.y - (p.y + -1)) (by omega)]
              have hxx : |tgt.x - (p.x + 0)| = 0 := abs_eq_zero.mpr (by omega)
              rw [hxx]
              push_cast at hman ⊢
              omega
            obtain ⟨ds, hw, hlen⟩ := ih (p.step .down) hpb' hman'
            exact ⟨Direction.down :: ds, Walk.cons (Hopen _ hpb') hw,
              by rw [List.length_cons, hlen]⟩
          · exfalso
            have hye : |tgt.y - p.y| = 0 := abs_eq_zero.mpr (by omega)
            rw [hxe, hye] at hman
            push_cast at hman
            omega

theorem manhattan_nonneg (p : Point) : 0 ≤ p.manhattan := by
  unfold Point.manhattan
  have h1 := abs_nonneg p.x
  have h2 := abs_nonneg p.y
  omega

theorem intBound_le_i32Max (n : Nat) : intBound n ≤ i32Max := by
  unfold intBound
  split
  · assumption
  · exact le_rfl

/-- C4: on a map with no Obstructed tiles, `navigate` between any two
in-bounds points returns `Some` path whose length is exactly the
Manhattan distance `manhattan (tgt - f)`, every element being one of the
4 unit `Direction`s.  (No size side condition is needed: with no
obstructions every g-cost is a Manhattan distance between in-bounds `i32`
points, below `u32::MAX`, so the `u32` arithmetic never wraps.) -/
theorem c4_navigate_open_grid {classify : T → Traversable} {m : Map T} {f tgt : Point}
    (Hlen : m.tiles.length = m.width * m.height) (Hsz : m.tiles.length < usizeMod)
    (Hnoobs : ∀ t ∈ m.tiles, classify t ≠ .obstructed)
    (Hf : m.inBounds f = true) (Htgt : m.inBounds tgt = true) :
    ∃ ds, navigate classify m f tgt = .done (some ds) ∧
      (ds.length : Int) = (Point.sub tgt f).manhattan ∧
      ∀ d ∈ ds, d ∈ Direction.list := by
  have Hopen : ∀ p, m.inBounds p = true → navOpen classify m p := by
    intro p hp
    obtain ⟨t, ht, -⟩ := indexPoint_isSome_of_inBounds Hlen Hsz hp
    exact ⟨hp, t, ht, Hnoobs t (indexPoint_mem ht)⟩
  have HB : ∀ (st : NavState) (cl : Nat) (dom : List Point),
      NavInv classify m f st cl → NavDom st dom →
      ∀ n ∈ st.openSet, n.cost + 1 < u32Max := by
    intro st cl dom inv hdom n hn
    have hc := inv.openCheap n hn
    have hib : m.inBounds n.position = true := inv.domInB n.position n.cost hc
    have hmn2 : 0 ≤ (Point.sub n.position f).manhattan := manhattan_nonneg _
    obtain ⟨ds0, hw0, hlen0⟩ := exists_manhattan_walk Hopen hib
      (Point.sub n.position f).manhattan.toNat f Hf
      (by rw [Int.toNat_of_nonneg hmn2])
    have hsound := inv.sound n.position n.cost hc ds0 hw0
    have hfb := Hf
    unfold Map.inBounds at hfb
    simp only [Bool.and_eq_true, decide_eq_true_eq] at hfb
    obtain ⟨⟨⟨hfx0, hfy0⟩, hfxw⟩, hfyh⟩ := hfb
    have hnb := hib
    unfold Map.inBounds at hnb
    simp only [Bool.and_eq_true, decide_eq_true_eq] at hnb
    obtain ⟨⟨⟨hnx0, hny0⟩, hnxw⟩, hnyh⟩ := hnb
    have hbw := intBound_le_i32Max m.width
    have hbh := intBound_le_i32Max m.height
    have hmanb : (Point.sub n.position f).manhattan ≤ 2 * i32Max - 2 := by
      unfold Point.manhattan Point.sub
      dsimp only
      have ha : |n.position.x - f.x| ≤ i32Max - 1 := by
        rw [abs_le]
        constructor <;> omega
      have hb2 : |n.position.y - f.y| ≤ i32Max - 1 := by
        rw [abs_le]
        constructor <;> omega
      omega
    have h3 : (ds0.length : Int) = (Point.sub n.position f).manhattan := by
      rw [hlen0, Int.toNat_of_nonneg hmn2]
    have hi32 : i32Max = 2147483647 := rfl
    rw [hi32] at hmanb
    show n.cost + 1 < 4294967295
    omega
  obtain ⟨hiff, hsome, r, hr⟩ :=
    @navigate_master T classify m f tgt Hlen Hsz Hf Htgt HB
  have hmn : 0 ≤ (Point.sub tgt f).manhattan := manhattan_nonneg _
  obtain ⟨ds0, hw0, hlen0⟩ := exists_manhattan_walk Hopen Htgt
    (Point.sub tgt f).manhattan.toNat f Hf (by rw [Int.toNat_of_nonneg hmn])
  cases r with
  | none => exact absurd ⟨ds0, hw0⟩ (hiff.mp hr)
  | some ds =>
    obtain ⟨hw, hmin, hman⟩ := hsome ds hr
    refine ⟨ds, hr, ?_, fun d _ => direction_mem_list d⟩
    have h1 := hmin ds0 hw0
    have h3 : (ds0.length : Int) = (Point.sub tgt f).manhattan := by
      rw [hlen0, Int.toNat_of_nonneg hmn]
    omega

/-- C5: for every map with fewer than `u32::MAX` tiles and every pair of
in-bounds points `f` and `tgt`, `navigate` terminates without panic,
returns `none` exactly when no 4-directional walk through non-Obstructed
tiles reaches `tgt` from `f` (Free and Halt tiles both traversable at
cost 1), and otherwise returns a shortest such sequence of `Direction`
steps, whose length is at least the Manhattan distance
`manhattan (tgt - f)`.  The size side condition keeps every recorded
`u32` cost below `u32::MAX` (each recorded cost is smaller than the cost
map's domain), so the source's wrapping cost arithmetic — modelled
bit-faithfully in `navExpand` — provably never wraps. -/
theorem c5_navigate_shortest_path {classify : T → Traversable} {m : Map T}
    {f tgt : Point}
    (Hlen : m.tiles.length = m.width * m.height) (Hsz : m.tiles.length < usizeMod)
    (Hf : m.inBounds f = true) (Htgt : m.inBounds tgt = true)
    (Hu32 : m.tiles.length < u32Max) :
    (navigate classify m f tgt = .done none ↔
      ¬∃ ds, Walk classify m f ds tgt) ∧
    (∀ ds, navigate classify m f tgt = .done (some ds) →
      Walk classify m f ds tgt ∧
      (∀ ds2, Walk classify m f ds2 tgt → ds.length ≤ ds2.length) ∧
      (Point.sub tgt f).manhattan ≤ (ds.length : Int)) ∧
    ∃ r, navigate classify m f tgt = .done r :=
  navigate_master Hlen Hsz Hf Htgt (by
    intro st cl dom inv hdom n hn
    have hc := inv.openCheap n hn
    have hlt := cheapest_cost_lt_dom inv hdom n.cost n.position hc
    have hdb : dom.length ≤ m.tiles.length := by
      rw [Hlen, Nat.mul_comm]
      exact navDom_length_le inv hdom
    omega)

/-- A fully Free 2×2 map, used to instantiate the `navigate` theorems. -/
def openMap2 : Map Traversable :=
  { tiles := [.free, .free, .free, .free], width := 2, height := 2 }

/-- Witness for C5 at a concrete input: the 2×2 open map, `(0,0)` to
`(1,1)`. -/
theorem c5_navigate_shortest_path_witness :
    (openMap2.tiles.length = openMap2.width * openMap2.height ∧
     openMap2.tiles.length < usizeMod ∧
     openMap2.inBounds ⟨0, 0⟩ = true ∧ openMap2.inBounds ⟨1, 1⟩ = true ∧
     openMap2.tiles.length < u32Max) ∧
    ((navigate id openMap2 ⟨0, 0⟩ ⟨1, 1⟩ = .done none ↔
       ¬∃ ds, Walk id openMap2 ⟨0, 0⟩ ds ⟨1, 1⟩) ∧
     (∀ ds, navigate id openMap2 ⟨0, 0⟩ ⟨1, 1⟩ = .done (some ds) →
       Walk id openMap2 ⟨0, 0⟩ ds ⟨1, 1⟩ ∧
       (∀ ds2, Walk id openMap2 ⟨0, 0⟩ ds2 ⟨1, 1⟩ → ds.length ≤ ds2.length) ∧
       (Point.sub ⟨1, 1⟩ ⟨0, 0⟩).manhattan ≤ (ds.length : Int)) ∧
     ∃ r, navigate id openMap2 ⟨0, 0⟩ ⟨1, 1⟩ = .done r) :=
  ⟨⟨by decide, by decide, by decide, by decide, by decide⟩,
   c5_navigate_shortest_path (by decide) (by decide) (by decide) (by decide)
     (by decide)⟩

/-- Witness for C4 at a concrete input: the 2×2 open map, `(0,0)` to
`(1,1)`. -/
theorem c4_navigate_open_grid_witness :
    (openMap2.tiles.length = openMap2.width * openMap2.height ∧
     openMap2.tiles.length < usizeMod ∧
     (∀ t ∈ openMap2.tiles, id t ≠ Traversable.obstructed) ∧
     openMap2.inBounds ⟨0, 0⟩ = true ∧ openMap2.inBounds ⟨1, 1⟩ = true) ∧
    ∃ ds, navigate id openMap2 ⟨0, 0⟩ ⟨1, 1⟩ = .done (some ds) ∧
      (ds.length : Int) = (Point.sub ⟨1, 1⟩ ⟨0, 0⟩).manhattan ∧
      ∀ d ∈ ds, d ∈ Direction.list :=
  ⟨⟨by decide, by decide, by decide, by decide, by decide⟩,
   c4_navigate_open_grid (by decide) (by decide) (by decide) (by decide) (by decide)⟩
